import Mathlib

/-! gsync: the pull-side worker of the directory synchroniser

A shallow embedding of `src/gsync/gsync/gsync.go` (`startWork` and the five
helpers that talk to the server) together with the properties of the
reconciliation cycle, the block patch and the adaptive poll interval.

Conventions of the embedding:

* the remote server is an oracle `srv : List Request → Request → Reply` that
  answers a request given the requests issued before it;
* the local file system is a map from locations to nodes; the worker has the
  rights of the superuser, so the mode bits of a node never deny it access,
  and resource failures (ENOSPC, allocation limits) are not modelled;
* a Go run-time panic (nil dereference, failed single-value type assertion,
  `make` with a negative length) ends the worker: it is the `crash` outcome;
* `time.Duration` is a signed 64-bit count of nanoseconds, arithmetic wraps.
-/

namespace Gsync

/-! ## Machine integers and durations -/

/-- Two's-complement wrap of an integer into the `int64` range. -/
def wrap64 (x : Int) : Int := (x + 2 ^ 63) % 2 ^ 64 - 2 ^ 63

/-- The constant `time.Second`, in nanoseconds. -/
def second : Int := 1000000000

/-- The maximum interval `start` hands to every worker (line 46): `time.Second*10`. -/
def startMaxInterval : Int := second * 10

/-- The idle branch of `startWork` (lines 68-71): `sleepTime *= 2`, then the cap. -/
def idleBackoff (maxInterval sleepTime : Int) : Int :=
  let doubled := wrap64 (sleepTime * 2)
  if doubled ≥ maxInterval then maxInterval else doubled

/-- The sleep interval a cycle leaves behind: the idle branch when `/dirs` was
empty, `time.Second` otherwise (line 73). -/
def nextSleep (maxInterval : Int) (idle : Bool) (sleepTime : Int) : Int :=
  if idle then idleBackoff maxInterval sleepTime else second

/-! ## Bytes, CRC-32 (IEEE) and decimal rendering -/

/-- A byte string; every element is read modulo 256. -/
abbrev Bytes := List Nat

/-- One bit of the reflected CRC-32 division by the IEEE polynomial. -/
def crcShift (c : Nat) : Nat :=
  if c % 2 = 1 then (c / 2) ^^^ 0xEDB88320 else c / 2

/-- Feeding one byte to the running CRC register. -/
def crcByte (c b : Nat) : Nat :=
  crcShift (crcShift (crcShift (crcShift (crcShift (crcShift (crcShift (crcShift
    (c ^^^ (b % 256)))))))))

/-- The value of `h.Reset(); h.Write(data); h.Sum32()` for `h := crc32.NewIEEE()`. -/
def crc32 (data : Bytes) : Nat :=
  (data.foldl crcByte 0xFFFFFFFF) ^^^ 0xFFFFFFFF

/-- The string `fmt.Sprint` gives for a `uint32`. -/
def sprintUint32 (v : Nat) : String := toString v

/-- Bytes of an ASCII text. -/
def ascii (s : String) : Bytes := s.toList.map Char.toNat

/-! ## Decoded JSON -/

/-- A value as go-simplejson decodes it (`UseNumber` is on, so a number is a
`json.Number`): an integer literal is carried by its value, of any size; `frac`
is a number literal that is no integer literal; an object is carried by its
key/value pairs. -/
inductive JVal where
  | null
  | bool (b : Bool)
  | num (n : Int)
  | frac
  | str (s : String)
  | arr (items : List JVal)
  | obj (fields : List (String × JVal))

/-- Evaluates `v.(map[string]interface{})` with the comma-ok form followed by
an index: a value that is not an object gives the nil map, where every key is
absent. -/
def JVal.index (v : JVal) (key : String) : Option JVal :=
  match v with
  | .obj fields => fields.lookup key
  | _ => none

/-- Evaluates `x, _ := m[key].(string)`: the empty string unless a string is there. -/
def strOrEmpty (v : Option JVal) : String :=
  match v with
  | some (.str s) => s
  | _ => ""

/-- The value `strconv.ParseInt(s, 10, 64)` returns for an integer literal: the value
itself, or on a range error the nearest bound of `int64`. -/
def clamp64 (n : Int) : Int :=
  if n < -2 ^ 63 then -2 ^ 63 else if 2 ^ 63 ≤ n then 2 ^ 63 - 1 else n

/-- Evaluates `n, _ := m[key].(json.Number)` followed by `x, _ := n.Int64()`, the error
dropped: zero unless an integer literal is there, and the nearest bound for
one out of range. -/
def int64OrZero (v : Option JVal) : Int :=
  match v with
  | some (.num n) => clamp64 n
  | _ => 0

/-- Evaluates `MustInt64(d)` of go-simplejson: the value when `Int64()` reports no error, the
default `d` otherwise, also for an integer literal out of range. -/
def mustInt64 (v : Option JVal) (d : Int) : Int :=
  match v with
  | some (.num n) => if -2 ^ 63 ≤ n ∧ n < 2 ^ 63 then n else d
  | _ => d

/-- Evaluates `json.MustArray()` on a decoded body: nil unless the body is an array. -/
def mustArray (v : JVal) : List JVal :=
  match v with
  | .arr items => items
  | _ => []

/-- Evaluates `json.Get("current_time").MustInt64(0)` on a decoded body. -/
def currentTimeOf (v : JVal) : Int :=
  mustInt64 (v.index "current_time") 0

/-! ## Requests, replies and the local name space -/

/-- The five GET requests of the client. Host, port and the `AUTH_KEY` header
are the same for every request of one worker and are left out; a file path
stands for its percent-encoding. -/
inductive Request where
  | time
  | dirs (lastIndexed : Int)
  | files (lastIndexed : Int) (filePath : String)
  | fileParts (filePath : String)
  | download (filePath : String) (start length : Int)
  deriving DecidableEq

/-- What `client.Do` and the decoder make of a request: no response at all
(`resp` is nil), or a body together with what `simplejson.NewJson` returns for
it (`none` when it returns the nil `*Json` with an error). -/
inductive Reply where
  | noResponse
  | body (raw : Bytes) (json : Option JVal)

/-- Run-time panics of the worker. -/
inductive Panic where
  | nilDereference
  | typeAssertion
  | makeSlice
  deriving DecidableEq

/-- A directory or a regular file of the local name space; `mtime` is
`ModTime().Unix()`, a directory also records its permission bits and the size
`Stat` reports for it. -/
inductive Node where
  | dir (mode size mtime : Int)
  | file (data : Bytes) (mtime : Int)
  deriving DecidableEq

/-- A location strictly below the root directory: the components of the
directory that holds it, outermost first, and its own name. -/
structure Path where
  dir : List String
  base : String
  deriving DecidableEq

/-- All components of a location. -/
def Path.comps (p : Path) : List String := p.dir ++ [p.base]

/-- The local name space: the node at each component list, if any. The root
directory is implicit. -/
abbrev FS := List String → Option Node

/-- An open `*os.File`: where it points and its seek offset. -/
structure File where
  path : List String
  offset : Nat
  deriving DecidableEq

/-- Everything the worker's surroundings decide: the server, the clock that
stamps modified nodes, the two functions of package `gsyncd/index`, the
monitor root, the file mode creation mask of the process and the size a
fresh directory reports. -/
structure Env where
  srv : List Request → Request → Reply
  clock : List Request → Int
  slashSuffix : String → String
  pathSafe : String → Path
  monitored : String
  umask : Nat
  newDirSize : Int

/-- The observable state: the local name space, the requests issued so far
(oldest first) and the durations slept so far (oldest first). -/
structure World where
  fs : FS
  trace : List Request
  slept : List Int

/-- How a piece of the worker ends: normally with a value, or in a panic. -/
inductive Outcome (α : Type) where
  | done (val : α) (w : World)
  | crash (p : Panic) (w : World)

/-- The state an outcome leaves behind. -/
def Outcome.world {α : Type} : Outcome α → World
  | .done _ w => w
  | .crash _ w => w

/-- Sequencing: a panic stops everything after it. -/
def Outcome.bind {α β : Type} (o : Outcome α) (f : α → World → Outcome β) : Outcome β :=
  match o with
  | .done a w => f a w
  | .crash p w => .crash p w

/-- The panic an outcome ended in, if it did. -/
def Outcome.panic? {α : Type} : Outcome α → Option Panic
  | .done _ _ => none
  | .crash p _ => some p

/-- The value of an outcome that ended normally. -/
def Outcome.val? {α : Type} : Outcome α → Option α
  | .done a _ => some a
  | .crash _ _ => none

/-! ## The file-system calls the worker makes -/

/-- The proper, non-empty prefixes of a component list, outermost first. -/
def ancestors (p : List String) : List (List String) :=
  p.inits.filter fun q => decide (q ≠ [] ∧ q ≠ p)

/-- Is a directory there? -/
def isDir : Option Node → Bool
  | some (.dir _ _ _) => true
  | _ => false

/-- Is a regular file there? -/
def isFile : Option Node → Bool
  | some (.file _ _) => true
  | _ => false

/-- Result of `os.Stat`, as far as the worker looks at it. -/
inductive StatResult where
  | info (n : Node)
  | notExist
  | notDir
  deriving DecidableEq

/-- The call `os.Stat`: the walk stops at the first ancestor that is no directory, with
ENOENT when nothing is there and ENOTDIR otherwise. -/
def stat (fs : FS) (p : List String) : StatResult :=
  match (ancestors p).find? fun q => !isDir (fs q) with
  | some q => if (fs q).isSome then .notDir else .notExist
  | none =>
    match fs p with
    | some n => .info n
    | none => .notExist

/-- The value of `info.Size()`. -/
def Node.size : Node → Int
  | .dir _ size _ => size
  | .file data _ => data.length

/-- The value of `info.ModTime().Unix()`. -/
def Node.mtime : Node → Int
  | .dir _ _ mtime => mtime
  | .file _ mtime => mtime

/-- The call `os.RemoveAll`: the node and everything below it go; a missing path is fine. -/
def removeAll (p : List String) (w : World) : World :=
  { w with fs := fun q => if p <+: q then none else w.fs q }

/-- The permission bits a directory gets from `os.Mkdir(name, os.FileMode(dirMode))`: the low
nine bits of the mode (`Perm()`), less the bits of the creation mask. -/
def dirPerm (umask : Nat) (dirMode : Int) : Int :=
  (((dirMode % 512).toNat &&& (511 ^^^ (umask % 512)) : Nat) : Int)

/-- The call `os.MkdirAll`: fails, changing nothing, when the path or one of its
ancestors is a regular file; otherwise every missing directory on the way
is created with the permission bits the mode and the creation mask give. A
directory that exists keeps its bits. -/
def mkdirAll (env : Env) (p : List String) (mode : Int) (w : World) : World :=
  if p.inits.any (fun q => isFile (w.fs q)) then w
  else
    { w with fs := fun q =>
        if q <+: p ∧ q ≠ [] ∧ w.fs q = none then
          some (.dir (dirPerm env.umask mode) env.newDirSize (env.clock w.trace))
        else w.fs q }

/-- The call `os.Create`: needs every ancestor to be a directory and no directory
at the path itself; leaves an empty regular file and a handle at offset 0.
On failure the handle is nil. -/
def create (env : Env) (p : List String) (w : World) : Option File × World :=
  if (ancestors p).all (fun q => isDir (w.fs q)) && !isDir (w.fs p) then
    (some ⟨p, 0⟩,
      { w with fs := fun q => if q = p then some (.file [] (env.clock w.trace)) else w.fs q })
  else (none, w)

/-- The call `os.OpenFile(file, os.O_RDWR, 0666)`: a handle at offset 0 when a regular file
is reachable at the path, nil otherwise. -/
def openFile (fs : FS) (p : List String) : Option File :=
  if (ancestors p).all (fun q => isDir (fs q)) && isFile (fs p) then some ⟨p, 0⟩ else none

/-- Content of given length: cut, or padded with zero bytes. -/
def resize (data : Bytes) (n : Nat) : Bytes :=
  data.take n ++ List.replicate (n - data.length) 0

/-- Content after writing `new` at offset `off`; a gap past the end reads as zeros. -/
def overwrite (data : Bytes) (off : Nat) (new : Bytes) : Bytes :=
  resize data off ++ new ++ data.drop (off + new.length)

/-- Rewrites the content of the regular file at `p`, stamping it with the clock. -/
def updateFile (env : Env) (p : List String) (f : Bytes → Bytes) (w : World) : World :=
  match w.fs p with
  | some (.file data _) =>
    { w with fs := fun q => if q = p then some (.file (f data) (env.clock w.trace)) else w.fs q }
  | _ => w

/-- The call `out.Truncate(size)`: an error without effect on the nil handle and for a
negative size. -/
def truncate (env : Env) (out : Option File) (size : Int) (w : World) : World :=
  match out with
  | none => w
  | some h => if size < 0 then w else updateFile env h.path (fun d => resize d size.toNat) w

/-- The bytes `out.ReadAt(buf, off)` puts into a buffer of length `len`: none on the nil
handle or for a negative offset, otherwise what the file holds from `off` on. -/
def readAt (fs : FS) (out : Option File) (len : Nat) (off : Int) : Bytes :=
  match out with
  | none => []
  | some h =>
    if off < 0 then []
    else
      match fs h.path with
      | some (.file data _) => (data.drop off.toNat).take len
      | _ => []

/-- The call `file.Seek(start, os.SEEK_SET)`: the offset moves unless the handle is nil or
`start` is negative. -/
def seek (file : Option File) (start : Int) : Option File :=
  match file with
  | none => none
  | some h => if start < 0 then some h else some { h with offset := start.toNat }

/-- The call `io.CopyN(file, body, length)`: at most `length` bytes of the body are written
at the handle's offset, which advances; nothing is written for an empty
copy or on the nil handle. -/
def copyN (env : Env) (file : Option File) (body : Bytes) (length : Int) (w : World) :
    Option File × World :=
  let data := body.take length.toNat
  match file with
  | none => (none, w)
  | some h =>
    if data = [] then (some h, w)
    else
      (some { h with offset := h.offset + data.length },
        updateFile env h.path (fun d => overwrite d h.offset data) w)

/-! ## The remote index client -/

/-- The state after a request went out. -/
def sent (r : Request) (w : World) : World :=
  { w with trace := w.trace ++ [r] }

/-- The common part of the four JSON endpoints: issue the request, read the
body, decode it. With no response `resp.Body` dereferences nil; when the
decoder fails the next call goes through the nil `*Json`. -/
def fetchJson (env : Env) (r : Request) (w : World) : Outcome JVal :=
  match env.srv w.trace r with
  | .noResponse => .crash .nilDereference (sent r w)
  | .body _ none => .crash .nilDereference (sent r w)
  | .body _ (some v) => .done v (sent r w)

/-- Go function `timeFromServer` (lines 207-217). -/
def timeFromServer (env : Env) (w : World) : Outcome Int :=
  (fetchJson env .time w).bind fun json w1 => .done (currentTimeOf json) w1

/-- Go function `dirsFromServer` (lines 195-205). -/
def dirsFromServer (env : Env) (lastIndexed : Int) (w : World) : Outcome (List JVal) :=
  (fetchJson env (.dirs lastIndexed) w).bind fun json w1 => .done (mustArray json) w1

/-- Go function `filesFromServer` (lines 182-193). -/
def filesFromServer (env : Env) (filePath : String) (lastIndexed : Int) (w : World) :
    Outcome (List JVal) :=
  (fetchJson env (.files lastIndexed filePath) w).bind fun json w1 => .done (mustArray json) w1

/-- Go function `filePartsFromServer` (lines 169-180). -/
def filePartsFromServer (env : Env) (filePath : String) (w : World) : Outcome (List JVal) :=
  (fetchJson env (.fileParts filePath) w).bind fun json w1 => .done (mustArray json) w1

/-- Go function `downloadFromServer` (lines 157-167): the request, the seek, the copy of at
most `length` body bytes. The byte count it returns is dropped by both
callers; the handle is returned instead, with its new offset. -/
def downloadFromServer (env : Env) (filePath : String) (start length : Int)
    (file : Option File) (w : World) : Outcome (Option File) :=
  match env.srv w.trace (.download filePath start length) with
  | .noResponse => .crash .nilDereference (sent (.download filePath start length) w)
  | .body raw _ =>
    let r := copyN env (seek file start) raw length (sent (.download filePath start length) w)
    .done r.1 r.2

/-! ## The reconciler -/

/-- The local path of a server-relative one:
`index.PathSafe(index.SlashSuffix(monitored) + rel)`. -/
def localPath (env : Env) (rel : String) : List String :=
  (env.pathSafe (env.slashSuffix env.monitored ++ rel)).comps

/-- One iteration of the part loop (lines 128-146). -/
def patchPart (env : Env) (filePath : String) (filePart : JVal) (out : Option File)
    (w : World) : Outcome (Option File) :=
  let startIndex := int64OrZero (filePart.index "StartIndex")
  let offset := int64OrZero (filePart.index "Offset")
  match filePart.index "Checksum" with
  | some (.str checksum) =>
    if offset < 0 then .crash .makeSlice w
    else
      let buf := readAt w.fs out offset.toNat startIndex
      let v := sprintUint32 (crc32 buf)
      if checksum = v then .done out w
      else downloadFromServer env filePath startIndex offset out w
  | _ => .crash .typeAssertion w

/-- The part loop (lines 127-147). -/
def patchLoop (env : Env) (filePath : String) :
    List JVal → Option File → World → Outcome (Option File)
  | [], out, w => .done out w
  | filePart :: rest, out, w =>
    (patchPart env filePath filePart out w).bind fun out1 w1 =>
      patchLoop env filePath rest out1 w1

/-- The block-patch path (lines 118-147): list the parts, open, truncate, patch. -/
def blockPatch (env : Env) (filePath : String) (file : List String) (fileSize : Int)
    (w : World) : Outcome Unit :=
  (filePartsFromServer env filePath w).bind fun fileParts w1 =>
    let out := openFile w1.fs file
    let w2 := truncate env out fileSize w1
    if fileParts.length = 0 then .done () w2
    else (patchLoop env filePath fileParts out w2).bind fun _ w3 => .done () w3

/-- One iteration of the file loop (lines 94-148). -/
def processFile (env : Env) (fileRec : JVal) (w : World) : Outcome Unit :=
  let filePath := strOrEmpty (fileRec.index "FilePath")
  match fileRec.index "Status" with
  | some (.str fileStatus) =>
    let file := localPath env filePath
    if fileStatus = "deleted" then .done () (removeAll file w)
    else
      let fileSize := int64OrZero (fileRec.index "FileSize")
      match stat w.fs file with
      | .notExist =>
        let c := create env file w
        (downloadFromServer env filePath 0 fileSize c.1 c.2).bind fun _ w1 => .done () w1
      | .notDir => .crash .nilDereference w
      | .info info =>
        let lastModified := int64OrZero (fileRec.index "LastModified")
        if fileSize = info.size ∧ lastModified = info.mtime then .done () w
        else blockPatch env filePath file fileSize w
  | _ => .crash .typeAssertion w

/-- The file loop (lines 93-149). -/
def fileLoop (env : Env) : List JVal → World → Outcome Unit
  | [], w => .done () w
  | fileRec :: rest, w => (processFile env fileRec w).bind fun _ w1 => fileLoop env rest w1

/-- One iteration of the directory loop (lines 75-149). -/
def processDir (env : Env) (lastIndexed : Int) (dirRec : JVal) (w : World) : Outcome Unit :=
  let dirPath := strOrEmpty (dirRec.index "FilePath")
  match dirRec.index "Status" with
  | some (.str dirStatus) =>
    let dir := localPath env dirPath
    if dirStatus = "deleted" then .done () (removeAll dir w)
    else
      let dirMode := int64OrZero (dirRec.index "FileMode")
      let w1 := mkdirAll env dir dirMode w
      (filesFromServer env dirPath lastIndexed w1).bind fun files w2 =>
        if files.length = 0 then .done () w2 else fileLoop env files w2
  | _ => .crash .typeAssertion w

/-- The directory loop (lines 74-150). -/
def dirLoop (env : Env) (lastIndexed : Int) : List JVal → World → Outcome Unit
  | [], w => .done () w
  | dirRec :: rest, w =>
    (processDir env lastIndexed dirRec w).bind fun _ w1 => dirLoop env lastIndexed rest w1

/-- The two variables `startWork` carries from one cycle to the next. -/
structure Worker where
  lastIndexed : Int
  sleepTime : Int
  deriving DecidableEq

/-- The call `time.Sleep(d)`, recorded. -/
def sleep (d : Int) (w : World) : World :=
  { w with slept := w.slept ++ [d] }

/-- One pass through the body of the `for` loop of `startWork` (lines 65-153). -/
def cycle (env : Env) (maxInterval : Int) (st : Worker) (w : World) : Outcome Worker :=
  (timeFromServer env w).bind fun serverIndexed w1 =>
    (dirsFromServer env st.lastIndexed w1).bind fun dirs w2 =>
      if dirs.length = 0 then
        let sleepTime := idleBackoff maxInterval st.sleepTime
        .done ⟨serverIndexed, sleepTime⟩ (sleep sleepTime w2)
      else
        (dirLoop env st.lastIndexed dirs w2).bind fun _ w3 =>
          .done ⟨serverIndexed, second⟩ (sleep second w3)

/-- The `for` loop of `startWork`, cut after `n` passes. -/
def cycles (env : Env) (maxInterval : Int) : Nat → Worker → World → Outcome Worker
  | 0, st, w => .done st w
  | n + 1, st, w => (cycle env maxInterval st w).bind fun st1 w1 => cycles env maxInterval n st1 w1

/-- Go function `startWork` (lines 61-155), observed for its first `n` cycles: the cursor starts
at 0 and the sleep interval at one second. -/
def startWork (env : Env) (maxInterval : Int) (n : Nat) (w : World) : Outcome Worker :=
  cycles env maxInterval n ⟨0, second⟩ w

/-! ## Observations on a run -/

/-- The requests an outcome added to the trace of the state it started from. -/
def newRequests {α : Type} (w : World) (o : Outcome α) : List Request :=
  o.world.trace.drop w.trace.length

/-- The cursor a request carries, for the two requests that carry one. -/
def cursorOf : Request → Option Int
  | .dirs c => some c
  | .files c _ => some c
  | _ => none

/-- Requests about one file: its part list and its byte ranges. -/
def Request.aboutFile : Request → Prop
  | .fileParts _ => True
  | .download _ _ _ => True
  | _ => False

/-- Requests a cycle with cursor `c` may issue. -/
def Request.ofCycle (c : Int) : Request → Prop
  | .time => True
  | .dirs c1 => c1 = c
  | .files c1 _ => c1 = c
  | .fileParts _ => True
  | .download _ _ _ => True

/-! ## Sample surroundings -/

/-- A server that answers `/time` with 7 and every listing with the empty array. -/
def idleEnv : Env where
  srv := fun _ r =>
    match r with
    | .time => .body [] (some (.obj [("current_time", .num 7)]))
    | _ => .body [] (some (.arr []))
  clock := fun _ => 0
  slashSuffix := fun s => s ++ "/"
  pathSafe := fun s => ⟨[], s⟩
  monitored := "m"
  umask := 18
  newDirSize := 4096

/-- The server of the cold-fetch scenario: `/time` is 42, one directory `a` with mode
0755, one file `a/x.txt` of five bytes last modified at 1000, whose bytes are
`hello`; the file has a single part. The mirror root is `/tmp/m`. -/
def coldEnv : Env where
  srv := fun _ r =>
    match r with
    | .time => .body [] (some (.obj [("current_time", .num 42)]))
    | .dirs _ => .body [] (some (.arr [.obj [("FilePath", .str "a"), ("Status", .str "present"),
        ("FileMode", .num 493)]]))
    | .files _ _ => .body [] (some (.arr [.obj [("FilePath", .str "a/x.txt"),
        ("Status", .str "present"), ("FileSize", .num 5), ("LastModified", .num 1000)]]))
    | .fileParts _ => .body [] (some (.arr [.obj [("StartIndex", .num 0), ("Offset", .num 5),
        ("Checksum", .str "907060870")]]))
    | .download _ start length => .body (((ascii "hello").drop start.toNat).take length.toNat) none
  clock := fun _ => 2000
  slashSuffix := fun s => s ++ "/"
  pathSafe := fun s =>
    if s = "/tmp/m/a" then ⟨["tmp", "m"], "a"⟩
    else if s = "/tmp/m/a/x.txt" then ⟨["tmp", "m", "a"], "x.txt"⟩
    else ⟨["tmp", "m"], s⟩
  monitored := "/tmp/m"
  umask := 18
  newDirSize := 4096

/-- The server of the block-patch scenario: `a/x.txt` now is the ten bytes
`AAAAACCCCC`, in two parts of five bytes. -/
def patchEnv : Env where
  srv := fun _ r =>
    match r with
    | .time => .body [] (some (.obj [("current_time", .num 43)]))
    | .dirs _ => .body [] (some (.arr [.obj [("FilePath", .str "a"), ("Status", .str "present"),
        ("FileMode", .num 493)]]))
    | .files _ _ => .body [] (some (.arr [.obj [("FilePath", .str "a/x.txt"),
        ("Status", .str "present"), ("FileSize", .num 10), ("LastModified", .num 1000)]]))
    | .fileParts _ => .body [] (some (.arr [
        .obj [("StartIndex", .num 0), ("Offset", .num 5), ("Checksum", .str "435704073")],
        .obj [("StartIndex", .num 5), ("Offset", .num 5), ("Checksum", .str "378346786")]]))
    | .download _ start length =>
      .body (((ascii "AAAAACCCCC").drop start.toNat).take length.toNat) none
  clock := fun _ => 2000
  slashSuffix := fun s => s ++ "/"
  pathSafe := fun s =>
    if s = "/tmp/m/a" then ⟨["tmp", "m"], "a"⟩
    else if s = "/tmp/m/a/x.txt" then ⟨["tmp", "m", "a"], "x.txt"⟩
    else ⟨["tmp", "m"], s⟩
  monitored := "/tmp/m"
  umask := 18
  newDirSize := 4096

/-- A mirror `/tmp/m` that holds directory `a` with the file `a/x.txt` of given
content and modification time. -/
def mirrorWith (data : Bytes) (mtime : Int) : World where
  fs := fun q =>
    if q = ["tmp"] ∨ q = ["tmp", "m"] ∨ q = ["tmp", "m", "a"] then some (.dir 493 4096 1)
    else if q = ["tmp", "m", "a", "x.txt"] then some (.file data mtime)
    else none
  trace := []
  slept := []

/-- A mirror `/tmp/m` that holds the empty directory `a`. -/
def mirrorDirs : World where
  fs := fun q =>
    if q = ["tmp"] ∨ q = ["tmp", "m"] ∨ q = ["tmp", "m", "a"] then some (.dir 493 4096 1)
    else none
  trace := []
  slept := []

/-- The two part records of the block-patch scenario. -/
def partA : JVal :=
  .obj [("StartIndex", .num 0), ("Offset", .num 5), ("Checksum", .str "435704073")]

/-- A second record for the block of `partA`, with another checksum. -/
def partA0 : JVal :=
  .obj [("StartIndex", .num 0), ("Offset", .num 5), ("Checksum", .str "0")]

/-- The second part record: the checksum of `CCCCC`. -/
def partC : JVal :=
  .obj [("StartIndex", .num 5), ("Offset", .num 5), ("Checksum", .str "378346786")]

/-- A record that reports `a` as deleted. -/
def deletedRec : JVal :=
  .obj [("FilePath", .str "a"), ("Status", .str "deleted")]

/-- A server like that of the cold-fetch scenario whose directory record has no
`Status` field. -/
def noStatusEnv : Env :=
  { coldEnv with
    srv := fun hist r =>
      match r with
      | .dirs _ => .body [] (some (.arr [.obj [("FilePath", .str "a"), ("FileMode", .num 493)]]))
      | _ => coldEnv.srv hist r }

/-- A server like that of the cold-fetch scenario that cannot be reached for `/dirs`. -/
def unreachableEnv : Env :=
  { coldEnv with
    srv := fun hist r =>
      match r with
      | .dirs _ => .noResponse
      | _ => coldEnv.srv hist r }

/-- A server like that of the cold-fetch scenario whose `/dirs` body is not JSON. -/
def garbledEnv : Env :=
  { coldEnv with
    srv := fun hist r =>
      match r with
      | .dirs _ => .body (ascii "oops") none
      | _ => coldEnv.srv hist r }

/-- A server like that of the cold-fetch scenario whose `/download` body breaks off
after three bytes. -/
def shortEnv : Env :=
  { coldEnv with
    srv := fun hist r =>
      match r with
      | .download _ _ _ => .body (ascii "hel") none
      | _ => coldEnv.srv hist r }

/-- A server that lists the directory `a/b` as present and, after it, the
directory `a` as deleted; no directory has file records. -/
def staleEnv : Env where
  srv := fun _ r =>
    match r with
    | .time => .body [] (some (.obj [("current_time", .num 44)]))
    | .dirs _ => .body [] (some (.arr [
        .obj [("FilePath", .str "a/b"), ("Status", .str "present"), ("FileMode", .num 493)],
        .obj [("FilePath", .str "a"), ("Status", .str "deleted")]]))
    | _ => .body [] (some (.arr []))
  clock := fun _ => 2000
  slashSuffix := fun s => s ++ "/"
  pathSafe := fun s =>
    if s = "/tmp/m/a" then ⟨["tmp", "m"], "a"⟩
    else if s = "/tmp/m/a/b" then ⟨["tmp", "m", "a"], "b"⟩
    else ⟨["tmp", "m"], s⟩
  monitored := "/tmp/m"
  umask := 18
  newDirSize := 4096

/-- The file record of the cold-fetch and skip scenarios. -/
def helloRec : JVal :=
  .obj [("FilePath", .str "a/x.txt"), ("Status", .str "present"), ("FileSize", .num 5),
    ("LastModified", .num 1000)]

/-- The record of the present directory `a`. -/
def dirA : JVal :=
  .obj [("FilePath", .str "a"), ("Status", .str "present"), ("FileMode", .num 493)]

/-- The record of the deleted directory `old`. -/
def dirOld : JVal :=
  .obj [("FilePath", .str "old"), ("Status", .str "deleted")]

/-- The record of the deleted file `a/y.txt`. -/
def fileY : JVal :=
  .obj [("FilePath", .str "a/y.txt"), ("Status", .str "deleted")]

/-- A server that lists the directory `a` as present, with the five-byte file
`a/x.txt` present and the file `a/y.txt` deleted, and the directory `old` as
deleted. -/
def mixedEnv : Env where
  srv := fun _ r =>
    match r with
    | .time => .body [] (some (.obj [("current_time", .num 45)]))
    | .dirs _ => .body [] (some (.arr [dirA, dirOld]))
    | .files _ _ => .body [] (some (.arr [helloRec, fileY]))
    | .fileParts _ => .body [] (some (.arr [.obj [("StartIndex", .num 0), ("Offset", .num 5),
        ("Checksum", .str "907060870")]]))
    | .download _ start length => .body (((ascii "hello").drop start.toNat).take length.toNat) none
  clock := fun _ => 2000
  slashSuffix := fun s => s ++ "/"
  pathSafe := fun s =>
    if s = "/tmp/m/a" then ⟨["tmp", "m"], "a"⟩
    else if s = "/tmp/m/old" then ⟨["tmp", "m"], "old"⟩
    else if s = "/tmp/m/a/x.txt" then ⟨["tmp", "m", "a"], "x.txt"⟩
    else if s = "/tmp/m/a/y.txt" then ⟨["tmp", "m", "a"], "y.txt"⟩
    else ⟨["tmp", "m"], s⟩
  monitored := "/tmp/m"
  umask := 18
  newDirSize := 4096

/-- A mirror `/tmp/m` with the directory `a` holding `y.txt`, and the directory `old`
holding `z.txt`. -/
def mixedWorld : World where
  fs := fun q =>
    if q = ["tmp"] ∨ q = ["tmp", "m"] ∨ q = ["tmp", "m", "a"] ∨ q = ["tmp", "m", "old"] then
      some (.dir 493 4096 1)
    else if q = ["tmp", "m", "a", "y.txt"] ∨ q = ["tmp", "m", "old", "z.txt"] then
      some (.file (ascii "bye") 1)
    else none
  trace := []
  slept := []

/-- The path resolution of the scenarios below, for the mirror root `/tmp/m`. -/
def samplePathSafe (s : String) : Path :=
  if s = "/tmp/m/a" then ⟨["tmp", "m"], "a"⟩
  else if s = "/tmp/m/a/x.txt" then ⟨["tmp", "m", "a"], "x.txt"⟩
  else if s = "/tmp/m/b/x.txt" then ⟨["tmp", "m", "b"], "x.txt"⟩
  else ⟨["tmp", "m"], s⟩

/-- A server with fixed answers: `/time` is 50, the given directory records, the
given file records per directory, the given part records for every file,
and the given body for every download. -/
def listingEnv (dirs : List JVal) (files : String → List JVal) (parts : List JVal)
    (body : Bytes) : Env where
  srv := fun _ r =>
    match r with
    | .time => .body [] (some (.obj [("current_time", .num 50)]))
    | .dirs _ => .body [] (some (.arr dirs))
    | .files _ dirPath => .body [] (some (.arr (files dirPath)))
    | .fileParts _ => .body [] (some (.arr parts))
    | .download _ _ _ => .body body none
  clock := fun _ => 2000
  slashSuffix := fun s => s ++ "/"
  pathSafe := samplePathSafe
  monitored := "/tmp/m"
  umask := 18
  newDirSize := 4096

/-- A directory record for the path of the file `a/x.txt`. -/
def dirX : JVal :=
  .obj [("FilePath", .str "a/x.txt"), ("Status", .str "present"), ("FileMode", .num 493)]

/-- A file record listed under `a` that lies in the directory `b`. -/
def fileBX : JVal :=
  .obj [("FilePath", .str "b/x.txt"), ("Status", .str "present"), ("FileSize", .num 5),
    ("LastModified", .num 1000)]

/-- A file record that declares a negative size. -/
def fileNeg : JVal :=
  .obj [("FilePath", .str "a/x.txt"), ("Status", .str "present"), ("FileSize", .num (-5)),
    ("LastModified", .num 1000)]

/-- A second file record for `a/x.txt` that declares three bytes. -/
def fileThree : JVal :=
  .obj [("FilePath", .str "a/x.txt"), ("Status", .str "present"), ("FileSize", .num 3),
    ("LastModified", .num 1000)]

/-- A part record that reaches past the five declared bytes. -/
def partOut : JVal :=
  .obj [("StartIndex", .num 3), ("Offset", .num 5), ("Checksum", .str "0")]

/-- The listing names `a/x.txt` as a present file of `a` and as a present directory. -/
def kindsEnv : Env :=
  listingEnv [dirA, dirX] (fun dirPath => if dirPath = "a" then [helloRec] else []) []
    (ascii "hello")

/-- The listing names the directory `a` alone. -/
def onlyDirEnv : Env := listingEnv [dirA] (fun _ => []) [] []

/-- The listing names, under `a`, a file that lies in the directory `b`. -/
def misplacedEnv : Env := listingEnv [dirA] (fun _ => [fileBX]) [] (ascii "hello")

/-- The listing declares a negative size for `a/x.txt`. -/
def negativeEnv : Env := listingEnv [dirA] (fun _ => [fileNeg]) [] (ascii "hello")

/-- The listing has two records for `a/x.txt`, of five and of three bytes. -/
def disagreeEnv : Env := listingEnv [dirA] (fun _ => [helloRec, fileThree]) [] (ascii "hello")

/-- The part list of `a/x.txt` reaches past the declared size. -/
def outsideEnv : Env := listingEnv [dirA] (fun _ => [helloRec]) [partOut] (ascii "hello")

/-- A record that reports the file `a/x.txt` as deleted. -/
def fileXGone : JVal :=
  .obj [("FilePath", .str "a/x.txt"), ("Status", .str "deleted")]

/-- A server that lists the directory `a` twice and changes its answer to `/files`
in between: first `a/x.txt` is present, then it is deleted. -/
def changingEnv : Env :=
  { listingEnv [dirA, dirA] (fun _ => [helloRec]) [] (ascii "hello") with
    srv := fun hist r =>
      match r with
      | .files _ _ =>
        if hist.length < 3 then .body [] (some (.arr [helloRec]))
        else .body [] (some (.arr [fileXGone]))
      | _ => (listingEnv [dirA, dirA] (fun _ => [helloRec]) [] (ascii "hello")).srv hist r }

/-- A mirror `/tmp/m` in which `a` is a regular file. -/
def blockedWorld : World where
  fs := fun q =>
    if q = ["tmp"] ∨ q = ["tmp", "m"] then some (.dir 493 4096 1)
    else if q = ["tmp", "m", "a"] then some (.file (ascii "bye") 1)
    else none
  trace := []
  slept := []

/-- A mirror `/tmp/m` in which `a/x.txt` is a directory. -/
def dirInWayWorld : World where
  fs := fun q =>
    if q = ["tmp"] ∨ q = ["tmp", "m"] ∨ q = ["tmp", "m", "a"] ∨ q = ["tmp", "m", "a", "x.txt"]
    then some (.dir 493 4096 1)
    else none
  trace := []
  slept := []

/-- Nothing local, nothing requested, nothing slept. -/
def emptyWorld : World := ⟨fun _ => none, [], []⟩

/-! ## Relations every step respects -/

/-- A relation between an earlier and a later state that holds across every
step of the worker below the cycle: across a request of the admitted kind and
across any change of the local name space. -/
structure Frame (R : World → World → Prop) (A : Request → Prop) : Prop where
  refl : ∀ w, R w w
  trans : ∀ a b c, R a b → R b c → R a c
  sent : ∀ r w, A r → R w (sent r w)
  fs : ∀ (w : World) (fs1 : FS), R w { w with fs := fs1 }

/-! ## Predicates used in the statements -/

/-- A server whose `/time` always decodes and whose `/dirs` always decodes to no
directory records. -/
def IdleServer (env : Env) : Prop :=
  ∀ hist : List Request,
    (∃ raw v, env.srv hist .time = .body raw (some v)) ∧
    ∀ c, ∃ raw v, env.srv hist (.dirs c) = .body raw (some v) ∧ mustArray v = []

/-- The intervals of `n` idle cycles in a row, starting from interval `s`. -/
def idleSleeps (maxInterval : Int) : Nat → Int → List Int
  | 0, _ => []
  | n + 1, s => idleBackoff maxInterval s :: idleSleeps maxInterval n (idleBackoff maxInterval s)

/-- The value of `StartIndex` the part loop reads from a part record. -/
def partStart (filePart : JVal) : Int := int64OrZero (filePart.index "StartIndex")

/-- The value of `Offset` the part loop reads from a part record. -/
def partOffset (filePart : JVal) : Int := int64OrZero (filePart.index "Offset")

/-- The `Checksum` string of a part record, if it has one. -/
def partChecksum (filePart : JVal) : Option String :=
  match filePart.index "Checksum" with
  | some (.str c) => some c
  | _ => none

/-- The part records tile `[pos, size)` contiguously, in order: each starts where
the one before ended, has a length that is not negative and a checksum
string, and the last one ends at `size`. -/
def tiles : Int → List JVal → Int → Bool
  | pos, [], size => decide (pos = size)
  | pos, filePart :: rest, size =>
    decide (partStart filePart = pos) && decide (0 ≤ partOffset filePart) &&
      (partChecksum filePart).isSome && tiles (pos + partOffset filePart) rest size

/-- The block of a byte string that a part record addresses. -/
def block (data : Bytes) (filePart : JVal) : Bytes :=
  (data.drop (partStart filePart).toNat).take (partOffset filePart).toNat

/-! ## What one poll cycle is told -/

/-- The records of a listing reply, as `MustArray` hands them to the loops. -/
def listing (rep : Reply) : List JVal :=
  match rep with
  | .body _ (some v) => mustArray v
  | .body _ none => []
  | .noResponse => []

/-- The server-relative path of a record. -/
def relPath (r : JVal) : String := strOrEmpty (r.index "FilePath")

/-- The resolved local path of a record. -/
def recPath (env : Env) (r : JVal) : List String := localPath env (relPath r)

/-- The record is reported as deleted. -/
def isDeleted (r : JVal) : Bool :=
  match r.index "Status" with
  | some (.str s) => decide (s = "deleted")
  | _ => false

/-- The record is reported as present: it has a status, and it is not `deleted`. -/
def isPresent (r : JVal) : Bool :=
  match r.index "Status" with
  | some (.str s) => decide (s ≠ "deleted")
  | _ => false

/-- The declared `FileSize` of a file record. -/
def recSize (r : JVal) : Int := int64OrZero (r.index "FileSize")

/-- The directory records a server with fixed answers lists for cursor `c`. -/
def dirRecs (env : Env) (c : Int) : List JVal := listing (env.srv [] (.dirs c))

/-- The file records such a server lists for a directory record. -/
def fileRecs (env : Env) (c : Int) (dirRec : JVal) : List JVal :=
  listing (env.srv [] (.files c (relPath dirRec)))

/-- The part records such a server lists for a file record. -/
def partRecs (env : Env) (fileRec : JVal) : List JVal :=
  listing (env.srv [] (.fileParts (relPath fileRec)))

/-- Every file record listed under a present directory record, paired with it. -/
def listedFiles (env : Env) (c : Int) : List (JVal × JVal) :=
  ((dirRecs env c).filter isPresent).flatMap fun dirRec =>
    (fileRecs env c dirRec).map fun fileRec => (dirRec, fileRec)

/-- The present file records of the cycle, each with its directory record. -/
def presentFiles (env : Env) (c : Int) : List (JVal × JVal) :=
  (listedFiles env c).filter fun e => isPresent e.2

/-- The local paths of the directories reported present. -/
def dirPaths (env : Env) (c : Int) : List (List String) :=
  ((dirRecs env c).filter isPresent).map (recPath env)

/-- The local paths reported deleted, of directories and of files. -/
def deletedPaths (env : Env) (c : Int) : List (List String) :=
  ((dirRecs env c).filter isDeleted).map (recPath env) ++
    ((listedFiles env c).filter fun e => isDeleted e.2).map fun e => recPath env e.2

/-- The body of a download reply, if there is one, has at least `size` bytes. -/
def fullBody (rep : Reply) (size : Int) : Bool :=
  match rep with
  | .body raw _ => decide (size ≤ raw.length)
  | .noResponse => true

/-- The assumptions under which a completed cycle leaves the mirror as reported:
the listing is free of conflicts, the local state does not stand in the way,
and the transfers deliver what the file records declare. -/
structure Orderly (env : Env) (c : Int) (fs : FS) : Prop where
  /-- The server answers each request the same way throughout the cycle. -/
  fixed : ∀ (hist : List Request) (r : Request), env.srv hist r = env.srv [] r
  /-- Nothing reported present lies at or below a path reported deleted. -/
  apartDirs : ∀ x ∈ deletedPaths env c, ∀ d ∈ dirPaths env c, ¬ x <+: d
  /-- Nothing reported present lies at or below a path reported deleted. -/
  apartFiles : ∀ x ∈ deletedPaths env c, ∀ e ∈ presentFiles env c, ¬ x <+: recPath env e.2
  /-- No present file is, or lies above, a present directory. -/
  kinds : ∀ e ∈ presentFiles env c, ∀ d ∈ dirPaths env c, ¬ recPath env e.2 <+: d
  /-- No regular file sits where a present directory or one of its ancestors goes. -/
  noFileInWay : ∀ d ∈ dirPaths env c, ∀ q ∈ d.inits, isFile (fs q) = false
  /-- No directory sits where a present file goes. -/
  noDirInWay : ∀ e ∈ presentFiles env c, isDir (fs (recPath env e.2)) = false
  /-- Every directory above a present file is the directory the file is listed
  under, or lies above that directory. -/
  placed : ∀ e ∈ presentFiles env c, ∀ q ∈ ancestors (recPath env e.2), q <+: recPath env e.1
  /-- Declared sizes are not negative. -/
  sizes : ∀ e ∈ presentFiles env c, 0 ≤ recSize e.2
  /-- Two present records for one local path declare the same size. -/
  agree : ∀ e1 ∈ presentFiles env c, ∀ e2 ∈ presentFiles env c,
    recPath env e1.2 = recPath env e2.2 → recSize e1.2 = recSize e2.2
  /-- A full download delivers at least the declared number of bytes. -/
  delivered : ∀ e ∈ presentFiles env c,
    fullBody (env.srv [] (.download (relPath e.2) 0 (recSize e.2))) (recSize e.2) = true
  /-- The parts of a present file lie inside its declared size. -/
  partsInside : ∀ e ∈ presentFiles env c, ∀ filePart ∈ partRecs env e.2,
    0 ≤ partStart filePart ∧ partStart filePart + partOffset filePart ≤ recSize e.2

/-- A statement about the local name space that a processed record brings about. -/
inductive Fact where
  | gone (x : List String)
  | dirAt (d : List String)
  | sized (f : List String) (size : Int)

/-- What a fact says of a local name space: nothing exists at or below the
path; the path and all its ancestors are directories; a regular file of the
given length is at the path. -/
def Fact.holds (fs : FS) : Fact → Prop
  | .gone x => ∀ q, x <+: q → fs q = none
  | .dirAt d => ∀ q, q <+: d → q ≠ [] → isDir (fs q) = true
  | .sized f size => ∃ data t, fs f = some (.file data t) ∧ (data.length : Int) = size

/-- The facts the records of a cycle call for. -/
def Fact.planned (env : Env) (c : Int) : Fact → Prop
  | .gone x => x ∈ deletedPaths env c
  | .dirAt d => d ∈ dirPaths env c
  | .sized f size => ∃ e ∈ presentFiles env c, recPath env e.2 = f ∧ recSize e.2 = size

/-- Throughout a cycle no regular file blocks a present directory and no
directory blocks a present file. -/
def Clear (env : Env) (c : Int) (fs : FS) : Prop :=
  (∀ d ∈ dirPaths env c, ∀ q ∈ d.inits, isFile (fs q) = false) ∧
    ∀ e ∈ presentFiles env c, isDir (fs (recPath env e.2)) = false

set_option maxRecDepth 100000

/-! ## Lemmas: the poll interval -/

theorem wrap64_of_range (x : Int) (h1 : -2 ^ 63 ≤ x) (h2 : x < 2 ^ 63) : wrap64 x = x := by
  unfold wrap64
  norm_num at h1 h2 ⊢
  omega

theorem idleBackoff_eq_min (m s : Int) (h1 : -2 ^ 62 ≤ s) (h2 : s < 2 ^ 62) :
    idleBackoff m s = min (2 * s) m := by
  have hw : wrap64 (s * 2) = s * 2 := by
    apply wrap64_of_range <;> norm_num at h1 h2 ⊢ <;> omega
  simp only [idleBackoff, hw]
  split
  · rw [min_eq_right (by omega)]
  · rw [min_eq_left (by omega)]; ring

theorem idleBackoff_bounds (m s : Int) (hm : second ≤ m) (hm2 : m < 2 ^ 62)
    (h1 : second ≤ s) (h2 : s ≤ m) :
    second ≤ idleBackoff m s ∧ idleBackoff m s ≤ m := by
  have hs : (0 : Int) ≤ second := by decide
  rw [idleBackoff_eq_min m s (by norm_num at hm2 ⊢; omega) (by omega)]
  constructor
  · exact le_min (by omega) hm
  · exact min_le_right _ _

/-! ## Lemmas: what a step can change -/

theorem Frame.of_fsOnly {R : World → World → Prop} {A : Request → Prop} (F : Frame R A)
    {w w1 : World} (h : ∃ fs1, w1 = { w with fs := fs1 }) : R w w1 := by
  obtain ⟨fs1, rfl⟩ := h
  exact F.fs w fs1

theorem removeAll_fsOnly (p : List String) (w : World) :
    ∃ fs1, removeAll p w = { w with fs := fs1 } := ⟨_, rfl⟩

theorem mkdirAll_fsOnly (env : Env) (p : List String) (mode : Int) (w : World) :
    ∃ fs1, mkdirAll env p mode w = { w with fs := fs1 } := by
  unfold mkdirAll
  split
  · exact ⟨w.fs, rfl⟩
  · exact ⟨_, rfl⟩

theorem create_fsOnly (env : Env) (p : List String) (w : World) :
    ∃ fs1, (create env p w).2 = { w with fs := fs1 } := by
  unfold create
  split
  · exact ⟨_, rfl⟩
  · exact ⟨w.fs, rfl⟩

theorem updateFile_fsOnly (env : Env) (p : List String) (f : Bytes → Bytes) (w : World) :
    ∃ fs1, updateFile env p f w = { w with fs := fs1 } := by
  unfold updateFile
  split
  · exact ⟨_, rfl⟩
  · exact ⟨w.fs, rfl⟩

theorem truncate_fsOnly (env : Env) (out : Option File) (size : Int) (w : World) :
    ∃ fs1, truncate env out size w = { w with fs := fs1 } := by
  unfold truncate
  split
  · exact ⟨w.fs, rfl⟩
  · split
    · exact ⟨w.fs, rfl⟩
    · exact updateFile_fsOnly _ _ _ _

theorem copyN_fsOnly (env : Env) (file : Option File) (body : Bytes) (length : Int)
    (w : World) : ∃ fs1, (copyN env file body length w).2 = { w with fs := fs1 } := by
  unfold copyN
  cases file with
  | none => exact ⟨w.fs, rfl⟩
  | some h =>
    by_cases hd : List.take length.toNat body = []
    · simp only [hd, if_true]; exact ⟨w.fs, rfl⟩
    · simp only [hd, if_false]; exact updateFile_fsOnly _ _ _ _

section FrameLemmas

variable {R : World → World → Prop} {A : Request → Prop} (F : Frame R A) (env : Env)
include F

theorem fetchJson_frame (r : Request) (hA : A r) (w : World) :
    R w (fetchJson env r w).world := by
  unfold fetchJson
  split <;> exact F.sent r w hA

theorem downloadFromServer_frame (filePath : String) (start length : Int)
    (hA : A (.download filePath start length)) (file : Option File) (w : World) :
    R w (downloadFromServer env filePath start length file w).world := by
  unfold downloadFromServer
  split
  · exact F.sent _ w hA
  · exact F.trans _ _ _ (F.sent _ w hA) (F.of_fsOnly (copyN_fsOnly _ _ _ _ _))

theorem bind_frame {α β : Type} (w : World) (o : Outcome α) (f : α → World → Outcome β)
    (h1 : R w o.world) (h2 : ∀ a w1, o = .done a w1 → R w1 (f a w1).world) :
    R w (o.bind f).world := by
  cases o with
  | done a w1 => exact F.trans _ _ _ h1 (h2 a w1 rfl)
  | crash p w1 => exact h1

theorem timeFromServer_frame (hA : A .time) (w : World) :
    R w (timeFromServer env w).world := by
  unfold timeFromServer
  exact bind_frame F w _ _ (fetchJson_frame F env _ hA w) (fun _ w1 _ => F.refl w1)

theorem dirsFromServer_frame (c : Int) (hA : A (.dirs c)) (w : World) :
    R w (dirsFromServer env c w).world := by
  unfold dirsFromServer
  exact bind_frame F w _ _ (fetchJson_frame F env _ hA w) (fun _ w1 _ => F.refl w1)

theorem patchPart_frame (hA : ∀ r, r.aboutFile → A r) (filePath : String) (filePart : JVal)
    (out : Option File) (w : World) : R w (patchPart env filePath filePart out w).world := by
  unfold patchPart
  split
  · dsimp only
    split
    · exact F.refl w
    · split
      · exact F.refl w
      · exact downloadFromServer_frame F env _ _ _ (hA (.download _ _ _) trivial) _ _
  · exact F.refl w

theorem patchLoop_frame (hA : ∀ r, r.aboutFile → A r) (filePath : String) (parts : List JVal) :
    ∀ (out : Option File) (w : World), R w (patchLoop env filePath parts out w).world := by
  induction parts with
  | nil => intro out w; exact F.refl w
  | cons p rest ih =>
    intro out w
    unfold patchLoop
    exact bind_frame F w _ _ (patchPart_frame F env hA _ _ _ _) (fun a w1 _ => ih a w1)

theorem blockPatch_frame (hA : ∀ r, r.aboutFile → A r) (filePath : String)
    (file : List String) (fileSize : Int) (w : World) :
    R w (blockPatch env filePath file fileSize w).world := by
  unfold blockPatch filePartsFromServer
  refine bind_frame F w _ _ ?_ ?_
  · exact bind_frame F w _ _ (fetchJson_frame F env _ (hA (.fileParts filePath) trivial) w)
      (fun _ w1 _ => F.refl w1)
  · intro fileParts w1 _
    dsimp only
    split
    · exact F.of_fsOnly (truncate_fsOnly _ _ _ _)
    · refine F.trans w1 (truncate env (openFile w1.fs file) fileSize w1) _
        (F.of_fsOnly (truncate_fsOnly env _ fileSize w1)) ?_
      exact bind_frame F _ _ _ (patchLoop_frame F env hA _ _ _ _) (fun _ w3 _ => F.refl w3)

theorem processFile_frame (hA : ∀ r, r.aboutFile → A r) (fileRec : JVal) (w : World) :
    R w (processFile env fileRec w).world := by
  unfold processFile
  split
  · dsimp only
    split
    · exact F.of_fsOnly (removeAll_fsOnly _ _)
    · split
      · refine F.trans w (create env (localPath env (strOrEmpty (fileRec.index "FilePath"))) w).2
          _ (F.of_fsOnly (create_fsOnly env _ w)) ?_
        exact bind_frame F _ _ _
          (downloadFromServer_frame F env _ _ _ (hA (.download _ _ _) trivial) _ _)
          (fun _ w1 _ => F.refl w1)
      · exact F.refl w
      · split
        · exact F.refl w
        · exact blockPatch_frame F env hA _ _ _ _
  · exact F.refl w

theorem fileLoop_frame (hA : ∀ r, r.aboutFile → A r) (files : List JVal) :
    ∀ w : World, R w (fileLoop env files w).world := by
  induction files with
  | nil => intro w; exact F.refl w
  | cons f rest ih =>
    intro w
    unfold fileLoop
    exact bind_frame F w _ _ (processFile_frame F env hA _ _) (fun _ w1 _ => ih w1)

theorem processDir_frame (c : Int) (hA : ∀ r, Request.ofCycle c r → A r) (dirRec : JVal)
    (w : World) : R w (processDir env c dirRec w).world := by
  have hA1 : ∀ r : Request, r.aboutFile → A r := by
    intro r hr
    apply hA
    cases r <;> simp_all [Request.aboutFile, Request.ofCycle]
  unfold processDir
  split
  · dsimp only
    split
    · exact F.of_fsOnly (removeAll_fsOnly _ _)
    · refine F.trans w (mkdirAll env (localPath env (strOrEmpty (dirRec.index "FilePath")))
        (int64OrZero (dirRec.index "FileMode")) w) _ (F.of_fsOnly (mkdirAll_fsOnly env _ _ w)) ?_
      unfold filesFromServer
      refine bind_frame F _ _ _ ?_ ?_
      · exact bind_frame F _ _ _ (fetchJson_frame F env _ (hA (.files c _) rfl) _) (fun _ w1 _ => F.refl w1)
      · intro files w2 _
        dsimp only
        split
        · exact F.refl w2
        · exact fileLoop_frame F env hA1 _ _
  · exact F.refl w

theorem dirLoop_frame (c : Int) (hA : ∀ r, Request.ofCycle c r → A r) (dirs : List JVal) :
    ∀ w : World, R w (dirLoop env c dirs w).world := by
  induction dirs with
  | nil => intro w; exact F.refl w
  | cons d rest ih =>
    intro w
    unfold dirLoop
    exact bind_frame F w _ _ (processDir_frame F env c hA _ _) (fun _ w1 _ => ih w1)

end FrameLemmas

/-! ## Lemmas: one cycle -/

theorem sleptFrame : Frame (fun w w1 => w1.slept = w.slept) (fun _ => True) where
  refl := fun _ => rfl
  trans := fun _ _ _ h1 h2 => h2.trans h1
  sent := fun _ _ _ => rfl
  fs := fun _ _ => rfl

theorem traceFrame (P : Request → Prop) :
    Frame (fun w w1 => ∃ l, w1.trace = w.trace ++ l ∧ ∀ r ∈ l, P r) P where
  refl := fun w => ⟨[], by simp⟩
  trans := by
    rintro a b c ⟨l1, h1, p1⟩ ⟨l2, h2, p2⟩
    refine ⟨l1 ++ l2, by rw [h2, h1, List.append_assoc], ?_⟩
    intro r hr
    rcases List.mem_append.1 hr with h | h
    · exact p1 r h
    · exact p2 r h
  sent := fun r w hr => ⟨[r], rfl, by simpa using hr⟩
  fs := fun w _ => ⟨[], by simp⟩

theorem val?_bind_some {α β : Type} (o : Outcome α) (f : α → World → Outcome β) (b : β)
    (h : (o.bind f).val? = some b) :
    ∃ a w1, o = .done a w1 ∧ (f a w1).val? = some b ∧ (o.bind f).world = (f a w1).world := by
  cases o with
  | done a w1 => exact ⟨a, w1, rfl, h, rfl⟩
  | crash p w1 => simp [Outcome.bind, Outcome.val?] at h

theorem done_of_val? {α : Type} (o : Outcome α) (a : α) (h : o.val? = some a) :
    o = .done a o.world := by
  cases o with
  | done b w1 => simp only [Outcome.val?, Option.some.injEq] at h; rw [h]; rfl
  | crash p w1 => simp [Outcome.val?] at h

/-- What a cycle that reaches its sleep has done to the two loop variables. -/
theorem cycle_val (env : Env) (m : Int) (st : Worker) (w : World) (st1 : Worker)
    (h : (cycle env m st w).val? = some st1) :
    ∃ T w1 dirs w2, timeFromServer env w = .done T w1 ∧
      dirsFromServer env st.lastIndexed w1 = .done dirs w2 ∧
      st1.lastIndexed = T ∧
      st1.sleepTime = nextSleep m (decide (dirs.length = 0)) st.sleepTime ∧
      (cycle env m st w).world.slept = w.slept ++ [st1.sleepTime] := by
  unfold cycle at h ⊢
  obtain ⟨T, w1, h1, h, e1⟩ := val?_bind_some _ _ _ h
  obtain ⟨dirs, w2, h2, h, e2⟩ := val?_bind_some _ _ _ h
  have s1 : w1.slept = w.slept := by
    have := timeFromServer_frame sleptFrame env trivial w
    rw [h1] at this
    exact this
  have s2 : w2.slept = w1.slept := by
    have := dirsFromServer_frame sleptFrame env st.lastIndexed trivial w1
    rw [h2] at this
    exact this
  refine ⟨T, w1, dirs, w2, h1, h2, ?_⟩
  rw [e1, e2]
  by_cases hd : dirs.length = 0
  · simp only [hd, if_true, Outcome.val?, Option.some.injEq] at h ⊢
    subst h
    simp [nextSleep, Outcome.world, sleep, s1, s2]
  · simp only [hd, if_false] at h ⊢
    obtain ⟨u, w3, h3, h, e3⟩ := val?_bind_some _ _ _ h
    have s3 : w3.slept = w2.slept := by
      have := dirLoop_frame sleptFrame env st.lastIndexed (fun _ _ => trivial) dirs w2
      rw [h3] at this
      exact this
    rw [e3]
    simp only [Outcome.val?, Option.some.injEq] at h
    subst h
    simp [nextSleep, hd, Outcome.world, sleep, s1, s2, s3]

theorem nextSleep_bounds (m s : Int) (idle : Bool) (hm : second ≤ m) (hm2 : m < 2 ^ 62)
    (h1 : second ≤ s) (h2 : s ≤ m) :
    second ≤ nextSleep m idle s ∧ nextSleep m idle s ≤ m := by
  unfold nextSleep
  split
  · exact idleBackoff_bounds m s hm hm2 h1 h2
  · exact ⟨le_refl _, hm⟩

theorem cycles_sleep_inv (env : Env) (m : Int) (hm : second ≤ m) (hm2 : m < 2 ^ 62) :
    ∀ (n : Nat) (st : Worker) (w : World) (st1 : Worker),
      second ≤ st.sleepTime → st.sleepTime ≤ m →
      (cycles env m n st w).val? = some st1 →
      second ≤ st1.sleepTime ∧ st1.sleepTime ≤ m := by
  intro n
  induction n with
  | zero =>
    intro st w st1 h1 h2 h
    simp only [cycles, Outcome.val?, Option.some.injEq] at h
    subst h
    exact ⟨h1, h2⟩
  | succ n ih =>
    intro st w st1 h1 h2 h
    unfold cycles at h
    obtain ⟨st2, w2, hc, h, _⟩ := val?_bind_some _ _ _ h
    have hv : (cycle env m st w).val? = some st2 := by rw [hc]; rfl
    obtain ⟨T, w1, dirs, w3, _, _, _, hs, _⟩ := cycle_val env m st w st2 hv
    have hb := nextSleep_bounds m st.sleepTime (decide (dirs.length = 0)) hm hm2 h1 h2
    rw [← hs] at hb
    exact ih st2 w2 st1 hb.1 hb.2 h

theorem idle_cycle (env : Env) (hsrv : IdleServer env) (m : Int) (st : Worker) (w : World) :
    ∃ T, cycle env m st w = .done ⟨T, idleBackoff m st.sleepTime⟩
      (sleep (idleBackoff m st.sleepTime) (sent (.dirs st.lastIndexed) (sent .time w))) := by
  obtain ⟨raw1, v1, h1⟩ := (hsrv w.trace).1
  obtain ⟨raw2, v2, h2, h3⟩ := (hsrv (sent .time w).trace).2 st.lastIndexed
  refine ⟨currentTimeOf v1, ?_⟩
  simp [cycle, timeFromServer, dirsFromServer, fetchJson, h1, h2, h3, Outcome.bind]

theorem idle_cycles_slept (env : Env) (hsrv : IdleServer env) (m : Int) :
    ∀ (n : Nat) (st : Worker) (w : World),
      (cycles env m n st w).world.slept = w.slept ++ idleSleeps m n st.sleepTime := by
  intro n
  induction n with
  | zero => intro st w; simp [cycles, idleSleeps, Outcome.world]
  | succ n ih =>
    intro st w
    obtain ⟨T, hT⟩ := idle_cycle env hsrv m st w
    unfold cycles
    rw [hT]
    simp only [Outcome.bind]
    rw [ih]
    simp [idleSleeps, sleep, sent]

/-! ## The adaptive poll interval (C8, C9) -/

/-- The doubling of line 68 is a 64-bit multiplication and the first sleep of a
fresh worker comes after the first doubling. With the largest `maxInterval` the
interval of the 34th idle cycle in a row wraps to a negative value instead of
the cap; with the design value of 10 s six idle cycles sleep 2, 4, 8, 10, 10
and 10 seconds, so no idle cycle sleeps one second. -/
theorem idle_backoff_counterexample :
    (startWork idleEnv 9223372036854775807 33 emptyWorld).val?
        = some ⟨7, 8589934592000000000⟩ ∧
      (startWork idleEnv 9223372036854775807 34 emptyWorld).val?
        = some ⟨7, -1266874889709551616⟩ ∧
      (-1266874889709551616 : Int) ≠ min (2 * 8589934592000000000) 9223372036854775807 ∧
      (startWork idleEnv (10 * second) 6 emptyWorld).world.slept
        ≠ [second, 2 * second, 4 * second, 8 * second, 10 * second, 10 * second] := by
  refine ⟨by decide, by decide, by decide, by decide⟩

/-- C8, amended. From a state whose interval `s` doubles without leaving the
64-bit range, a cycle whose `/dirs` listing is empty ends with interval
`min (2 * s) maxInterval` and sleeps exactly that long; a cycle with directory
records whose directory loop runs to its end ends with interval one second
and sleeps one second. Against a server that keeps listing no directories a
fresh worker with maximum 10 s sleeps 2, 4, 8, 10, 10, 10 seconds in its
first six cycles (the interval variable runs through 1, 2, 4, 8, 10, 10). -/
theorem adaptive_sleep (env : Env) (m : Int) (st : Worker) (w : World) (T : Int)
    (dirs : List JVal)
    (hlo : -2 ^ 62 ≤ st.sleepTime) (hhi : st.sleepTime < 2 ^ 62)
    (htime : (timeFromServer env w).val? = some T)
    (hdirs : (dirsFromServer env st.lastIndexed (timeFromServer env w).world).val? = some dirs) :
    (dirs = [] →
      (cycle env m st w).val? = some ⟨T, min (2 * st.sleepTime) m⟩ ∧
      (cycle env m st w).world.slept = w.slept ++ [min (2 * st.sleepTime) m]) ∧
    (dirs ≠ [] →
      (dirLoop env st.lastIndexed dirs
        (dirsFromServer env st.lastIndexed (timeFromServer env w).world).world).val? = some () →
      (cycle env m st w).val? = some ⟨T, second⟩ ∧
      (cycle env m st w).world.slept = w.slept ++ [second]) ∧
    (∀ (env1 : Env) (w1 : World), IdleServer env1 →
      (startWork env1 (10 * second) 6 w1).world.slept
        = w1.slept ++ [2 * second, 4 * second, 8 * second, 10 * second, 10 * second,
            10 * second]) := by
  have e1 := done_of_val? _ _ htime
  have e2 := done_of_val? _ _ hdirs
  refine ⟨?_, ?_, ?_⟩
  · intro hd
    have hv : (cycle env m st w).val? = some ⟨T, min (2 * st.sleepTime) m⟩ := by
      unfold cycle
      rw [e1]; simp only [Outcome.bind]
      rw [e2]; simp only [Outcome.bind]
      simp [hd, Outcome.val?, idleBackoff_eq_min m st.sleepTime hlo hhi]
    refine ⟨hv, ?_⟩
    obtain ⟨_, _, _, _, _, _, _, _, hs⟩ := cycle_val env m st w _ hv
    exact hs
  · intro hd hloop
    have e3 := done_of_val? _ _ hloop
    have hv : (cycle env m st w).val? = some ⟨T, second⟩ := by
      unfold cycle
      rw [e1]; simp only [Outcome.bind]
      rw [e2]; simp only [Outcome.bind]
      rw [if_neg (by simpa using hd)]
      rw [e3]; simp [Outcome.bind, Outcome.val?]
    refine ⟨hv, ?_⟩
    obtain ⟨_, _, _, _, _, _, _, _, hs⟩ := cycle_val env m st w _ hv
    exact hs
  · intro env1 w1 hsrv
    unfold startWork
    rw [idle_cycles_slept env1 hsrv]
    congr 1

theorem adaptive_sleep_witness :
    (cycle idleEnv (10 * second) ⟨0, second⟩ emptyWorld).val?
        = some ⟨7, min (2 * second) (10 * second)⟩ ∧
      (cycle idleEnv (10 * second) ⟨0, second⟩ emptyWorld).world.slept
        = emptyWorld.slept ++ [min (2 * second) (10 * second)] :=
  (adaptive_sleep idleEnv (10 * second) ⟨0, second⟩ emptyWorld 7 []
    (by decide) (by decide) rfl rfl).1 rfl

/-- With a maximum below one second the cap pulls the interval below one second:
with `maxInterval` half a second the first idle cycle sleeps half a second. -/
theorem sleep_bounds_counterexample :
    (startWork idleEnv 500000000 1 emptyWorld).world.slept = [500000000] ∧
      (500000000 : Int) < second := by
  refine ⟨by decide, by decide⟩

/-- C9, amended. For a maximum `m` with one second ≤ `m` < 2^62 ns: whenever the
worker has completed `n` cycles and completes one more, that cycle sleeps
exactly its new interval, the interval lies between one second and `m`,
and it is larger than the interval before the cycle only if the `/dirs` listing
of the cycle was empty. -/
theorem sleep_interval_bounded (env : Env) (m : Int) (n : Nat) (w : World) (st st1 : Worker)
    (hm : second ≤ m) (hm2 : m < 2 ^ 62)
    (h1 : (startWork env m n w).val? = some st)
    (h2 : (cycle env m st (startWork env m n w).world).val? = some st1) :
    (cycle env m st (startWork env m n w).world).world.slept
        = (startWork env m n w).world.slept ++ [st1.sleepTime] ∧
      second ≤ st1.sleepTime ∧ st1.sleepTime ≤ m ∧
      (st.sleepTime < st1.sleepTime →
        (dirsFromServer env st.lastIndexed
          (timeFromServer env (startWork env m n w).world).world).val? = some []) := by
  have hinv := cycles_sleep_inv env m hm hm2 n ⟨0, second⟩ w st (le_refl _) hm h1
  obtain ⟨T, w1, dirs, w2, ht, hd, _, hs, hsl⟩ := cycle_val env m st _ st1 h2
  have hb := nextSleep_bounds m st.sleepTime (decide (dirs.length = 0)) hm hm2 hinv.1 hinv.2
  rw [← hs] at hb
  refine ⟨hsl, hb.1, hb.2, ?_⟩
  intro hlt
  rw [ht]
  simp only [Outcome.world]
  rw [hd]
  simp only [Outcome.val?, Option.some.injEq]
  by_contra hne
  have : dirs.length ≠ 0 := by simpa using hne
  simp only [nextSleep, this, decide_False, Bool.false_eq_true, if_false] at hs
  omega

theorem sleep_interval_bounded_witness :
    (cycle idleEnv startMaxInterval ⟨7, 2 * second⟩
          (startWork idleEnv startMaxInterval 1 emptyWorld).world).world.slept
        = (startWork idleEnv startMaxInterval 1 emptyWorld).world.slept ++ [4 * second] ∧
      second ≤ 4 * second ∧ 4 * second ≤ startMaxInterval ∧
      (2 * second < 4 * second →
        (dirsFromServer idleEnv 7
          (timeFromServer idleEnv (startWork idleEnv startMaxInterval 1 emptyWorld).world).world).val?
          = some []) :=
  sleep_interval_bounded idleEnv startMaxInterval 1 emptyWorld ⟨7, 2 * second⟩ ⟨7, 4 * second⟩
    (by decide) (by decide) (by decide) (by decide)

/-! ## The cursor (C7) -/

theorem fetchJson_world (env : Env) (r : Request) (w : World) :
    (fetchJson env r w).world = sent r w := by
  unfold fetchJson
  split <;> rfl

theorem timeFromServer_world (env : Env) (w : World) :
    (timeFromServer env w).world = sent .time w := by
  have := fetchJson_world env .time w
  unfold timeFromServer
  cases h : fetchJson env .time w <;> rw [h] at this <;> exact this

theorem dirsFromServer_world (env : Env) (c : Int) (w : World) :
    (dirsFromServer env c w).world = sent (.dirs c) w := by
  have := fetchJson_world env (.dirs c) w
  unfold dirsFromServer
  cases h : fetchJson env (.dirs c) w <;> rw [h] at this <;> exact this

theorem cursor_of_ofCycle (c : Int) (r : Request) (h : Request.ofCycle c r) (c1 : Int)
    (hc : cursorOf r = some c1) : c1 = c := by
  cases r <;> simp_all [cursorOf, Request.ofCycle]

/-- Every request of a cycle is one a cycle with its cursor may issue. -/
theorem cycle_trace (env : Env) (m : Int) (st : Worker) (w : World) :
    ∃ l, (cycle env m st w).world.trace = w.trace ++ l ∧
      ∀ r ∈ l, Request.ofCycle st.lastIndexed r := by
  have F := traceFrame (Request.ofCycle st.lastIndexed)
  unfold cycle
  refine bind_frame F w _ _ (timeFromServer_frame F env trivial w) ?_
  intro T w1 _
  refine bind_frame F w1 _ _ (dirsFromServer_frame F env _ rfl w1) ?_
  intro dirs w2 _
  split
  · exact ⟨[], by simp [Outcome.world, sleep]⟩
  · refine bind_frame F w2 _ _ (dirLoop_frame F env _ (fun _ h => h) dirs w2) ?_
    intro _ w3 _
    exact ⟨[], by simp [Outcome.world, sleep]⟩

/-- Once `/time` has been answered the cycle goes on with `/dirs` at its cursor. -/
theorem cycle_trace_head (env : Env) (m : Int) (st : Worker) (w : World) (T : Int)
    (ht : (timeFromServer env w).val? = some T) :
    ∃ rest, (cycle env m st w).world.trace = w.trace ++ .time :: .dirs st.lastIndexed :: rest ∧
      ∀ r ∈ rest, Request.ofCycle st.lastIndexed r := by
  have F := traceFrame (Request.ofCycle st.lastIndexed)
  have e1 := done_of_val? _ _ ht
  rw [timeFromServer_world] at e1
  have hrest : ∃ l, ((dirsFromServer env st.lastIndexed (sent .time w)).bind fun dirs w2 =>
      if dirs.length = 0 then
        Outcome.done (⟨T, idleBackoff m st.sleepTime⟩ : Worker)
          (sleep (idleBackoff m st.sleepTime) w2)
      else
        (dirLoop env st.lastIndexed dirs w2).bind fun _ w3 =>
          Outcome.done (⟨T, second⟩ : Worker) (sleep second w3)).world.trace
        = (sent (.dirs st.lastIndexed) (sent .time w)).trace ++ l ∧
        ∀ r ∈ l, Request.ofCycle st.lastIndexed r := by
    cases hd : dirsFromServer env st.lastIndexed (sent .time w) with
    | crash p w2 =>
      have := dirsFromServer_world env st.lastIndexed (sent .time w)
      rw [hd] at this
      exact ⟨[], by simpa [Outcome.bind, Outcome.world] using congrArg World.trace this⟩
    | done dirs w2 =>
      have hw := dirsFromServer_world env st.lastIndexed (sent .time w)
      rw [hd] at hw
      simp only [Outcome.world] at hw
      subst hw
      simp only [Outcome.bind]
      split
      · exact ⟨[], by simp [Outcome.world, sleep]⟩
      · refine bind_frame F _ _ _ (dirLoop_frame F env _ (fun _ h => h) dirs _) ?_
        intro _ w3 _
        exact ⟨[], by simp [Outcome.world, sleep]⟩
  obtain ⟨l, hl, hp⟩ := hrest
  refine ⟨l, ?_, hp⟩
  unfold cycle
  rw [e1]
  simp only [Outcome.bind] at hl ⊢
  rw [hl]
  simp [sent]

/-- C7. When the worker has completed `n` cycles and completes one more: the cursor
of the first cycle is 0; the completed cycle asked `/time` first, then `/dirs` with
its cursor, and every later request of the cycle that carries a cursor (the
`/files` requests) carries the same one; the cursor it leaves behind is the value
`timeFromServer` returned at its start; and every `/dirs` and `/files` request of the
following cycle carries that value, `/dirs` being its second request as soon as
its own `/time` is answered. The statement does not depend on the cycle being
idle or not. -/
theorem cursor_is_server_time (env : Env) (m : Int) (n : Nat) (w : World) (st st1 : Worker)
    (h1 : (startWork env m n w).val? = some st)
    (h2 : (cycle env m st (startWork env m n w).world).val? = some st1) :
    (n = 0 → st.lastIndexed = 0) ∧
    (timeFromServer env (startWork env m n w).world).val? = some st1.lastIndexed ∧
    (∃ rest, newRequests (startWork env m n w).world
          (cycle env m st (startWork env m n w).world)
        = .time :: .dirs st.lastIndexed :: rest ∧
      ∀ r ∈ rest, ∀ c, cursorOf r = some c → c = st.lastIndexed) ∧
    (∀ r ∈ newRequests (cycle env m st (startWork env m n w).world).world
          (cycle env m st1 (cycle env m st (startWork env m n w).world).world),
        ∀ c, cursorOf r = some c → c = st1.lastIndexed) ∧
    ((timeFromServer env (cycle env m st (startWork env m n w).world).world).val?.isSome →
      (newRequests (cycle env m st (startWork env m n w).world).world
          (cycle env m st1 (cycle env m st (startWork env m n w).world).world)).take 2
        = [.time, .dirs st1.lastIndexed]) := by
  obtain ⟨T, w1, dirs, w2, ht, _, hT, _, _⟩ := cycle_val env m st _ st1 h2
  have htv : (timeFromServer env (startWork env m n w).world).val? = some st1.lastIndexed := by
    rw [ht, hT]; rfl
  refine ⟨?_, htv, ?_, ?_, ?_⟩
  · intro hn
    subst hn
    simp only [startWork, cycles, Outcome.val?, Option.some.injEq] at h1
    rw [← h1]
  · obtain ⟨rest, hr, hp⟩ := cycle_trace_head env m st _ _ htv
    refine ⟨rest, ?_, fun r hr c hc => cursor_of_ofCycle _ r (hp r hr) c hc⟩
    unfold newRequests
    rw [hr, List.drop_left]
  · obtain ⟨l, hl, hp⟩ := cycle_trace env m st1 (cycle env m st (startWork env m n w).world).world
    intro r hr c hc
    unfold newRequests at hr
    rw [hl, List.drop_left] at hr
    exact cursor_of_ofCycle _ r (hp r hr) c hc
  · intro hsome
    obtain ⟨T2, hT2⟩ := Option.isSome_iff_exists.1 hsome
    obtain ⟨rest, hr, _⟩ := cycle_trace_head env m st1 _ _ hT2
    unfold newRequests
    rw [hr, List.drop_left]
    rfl

theorem cursor_is_server_time_witness :
    (timeFromServer coldEnv (startWork coldEnv (10 * second) 1 emptyWorld).world).val? = some 42 ∧
    (∃ rest, newRequests (startWork coldEnv (10 * second) 1 emptyWorld).world
          (cycle coldEnv (10 * second) ⟨42, second⟩
            (startWork coldEnv (10 * second) 1 emptyWorld).world)
        = .time :: .dirs 42 :: rest ∧
      ∀ r ∈ rest, ∀ c, cursorOf r = some c → c = 42) :=
  have h := cursor_is_server_time coldEnv (10 * second) 1 emptyWorld ⟨42, second⟩ ⟨42, second⟩
    (by decide) (by decide)
  ⟨h.2.1, h.2.2.1⟩

/-! ## The part loop: when a block is requested (C2) -/

theorem bind_done {α β : Type} (a : α) (w : World) (f : α → World → Outcome β) :
    (Outcome.done a w).bind f = f a w := rfl

theorem bind_assoc {α β γ : Type} (o : Outcome α) (f : α → World → Outcome β)
    (g : β → World → Outcome γ) :
    (o.bind f).bind g = o.bind fun a w => (f a w).bind g := by
  cases o <;> rfl

theorem patchLoop_append (env : Env) (filePath : String) (pre post : List JVal) :
    ∀ (out : Option File) (w : World),
      patchLoop env filePath (pre ++ post) out w
        = (patchLoop env filePath pre out w).bind fun o w1 => patchLoop env filePath post o w1 := by
  induction pre with
  | nil => intro out w; rfl
  | cons p rest ih =>
    intro out w
    simp only [List.cons_append, patchLoop, bind_assoc]
    congr 1
    funext o w1
    exact ih o w1

theorem copyN_trace (env : Env) (file : Option File) (body : Bytes) (length : Int) (w : World) :
    (copyN env file body length w).2.trace = w.trace := by
  obtain ⟨fs1, h⟩ := copyN_fsOnly env file body length w
  rw [h]

theorem downloadFromServer_trace (env : Env) (filePath : String) (start length : Int)
    (file : Option File) (w : World) :
    (downloadFromServer env filePath start length file w).world.trace
      = w.trace ++ [.download filePath start length] := by
  unfold downloadFromServer
  split
  · rfl
  · simp only [Outcome.world, copyN_trace]
    rfl

theorem patchPart_requests (env : Env) (filePath : String) (filePart : JVal)
    (out : Option File) (w : World) :
    (patchPart env filePath filePart out w).world.trace = w.trace ∨
      (patchPart env filePath filePart out w).world.trace
        = w.trace ++ [.download filePath (partStart filePart) (partOffset filePart)] := by
  unfold patchPart
  split
  · dsimp only
    split
    · exact Or.inl rfl
    · split
      · exact Or.inl rfl
      · exact Or.inr (downloadFromServer_trace _ _ _ _ _ _)
  · exact Or.inl rfl

/-- Every request of the part loop is the download of the range of one of its
records. -/
theorem patchLoop_requests (env : Env) (filePath : String) (parts : List JVal) :
    ∀ (out : Option File) (w : World),
      ∃ l, (patchLoop env filePath parts out w).world.trace = w.trace ++ l ∧
        ∀ r ∈ l, ∃ p ∈ parts, r = .download filePath (partStart p) (partOffset p) := by
  induction parts with
  | nil => intro out w; exact ⟨[], by simp [patchLoop, Outcome.world], fun _ h => by cases h⟩
  | cons a rest ih =>
    intro out w
    have hstep : ∃ l, (patchPart env filePath a out w).world.trace = w.trace ++ l ∧
        ∀ r ∈ l, ∃ p ∈ a :: rest, r = .download filePath (partStart p) (partOffset p) := by
      rcases patchPart_requests env filePath a out w with h | h
      · exact ⟨[], by simpa using h, fun _ hr => by cases hr⟩
      · refine ⟨_, h, ?_⟩
        intro r hr
        rw [List.mem_singleton] at hr
        exact ⟨a, List.mem_cons_self a rest, hr⟩
    unfold patchLoop
    cases hp : patchPart env filePath a out w with
    | crash p w1 =>
      rw [hp] at hstep
      exact hstep
    | done out1 w1 =>
      rw [hp] at hstep
      obtain ⟨l1, h1, q1⟩ := hstep
      obtain ⟨l2, h2, q2⟩ := ih out1 w1
      simp only [Outcome.world] at h1
      refine ⟨l1 ++ l2, ?_, ?_⟩
      · rw [bind_done, h2, h1, List.append_assoc]
      · intro r hr
        rcases List.mem_append.1 hr with h | h
        · exact q1 r h
        · obtain ⟨p, hp1, hp2⟩ := q2 r h
          exact ⟨p, List.mem_cons_of_mem a hp1, hp2⟩

/-- The part list holds two records for the block `(0, 5)`: the first carries the
checksum of the local block, so its iteration issues no request; the second
does not, and the loop requests the block all the same. -/
theorem download_counterexample :
    partChecksum partA = some (sprintUint32 (crc32 (readAt (mirrorWith (ascii "AAAAABBBBB") 1).fs
      (some ⟨["tmp", "m", "a", "x.txt"], 0⟩) (partOffset partA).toNat (partStart partA)))) ∧
    newRequests (mirrorWith (ascii "AAAAABBBBB") 1)
      (patchPart patchEnv "a/x.txt" partA (some ⟨["tmp", "m", "a", "x.txt"], 0⟩)
        (mirrorWith (ascii "AAAAABBBBB") 1)) = [] ∧
    newRequests (mirrorWith (ascii "AAAAABBBBB") 1)
      (patchLoop patchEnv "a/x.txt" [partA, partA0] (some ⟨["tmp", "m", "a", "x.txt"], 0⟩)
        (mirrorWith (ascii "AAAAABBBBB") 1))
      = [.download "a/x.txt" (partStart partA) (partOffset partA)] := by
  refine ⟨by decide, by decide, by decide⟩

/-- C2, amended. In the part loop, once the parts before a record have been handled,
the record is inspected in the state they left. With a string `Checksum` and an
`Offset` that is not negative: when the decimal CRC-32 of the bytes read at
`StartIndex` equals `Checksum` the iteration changes nothing and issues no request;
otherwise it issues exactly the request `download(filePath, StartIndex, Offset)`.
Without a string `Checksum`, or with a negative `Offset`, the iteration panics
before any request. Every request of the whole loop is the download of the
range of one of the records of the list. -/
theorem download_iff_checksum_differs (env : Env) (filePath : String) (pre post : List JVal)
    (filePart : JVal) (out out1 : Option File) (w : World)
    (hpre : (patchLoop env filePath pre out w).val? = some out1) :
    patchLoop env filePath (pre ++ filePart :: post) out w
      = (patchPart env filePath filePart out1 (patchLoop env filePath pre out w).world).bind
          (fun o w2 => patchLoop env filePath post o w2) ∧
    (∀ checksum, filePart.index "Checksum" = some (.str checksum) →
      0 ≤ int64OrZero (filePart.index "Offset") →
      (sprintUint32 (crc32 (readAt (patchLoop env filePath pre out w).world.fs out1
            (int64OrZero (filePart.index "Offset")).toNat
            (int64OrZero (filePart.index "StartIndex")))) = checksum →
        patchPart env filePath filePart out1 (patchLoop env filePath pre out w).world
            = .done out1 (patchLoop env filePath pre out w).world ∧
          newRequests (patchLoop env filePath pre out w).world
            (patchPart env filePath filePart out1 (patchLoop env filePath pre out w).world) = []) ∧
      (sprintUint32 (crc32 (readAt (patchLoop env filePath pre out w).world.fs out1
            (int64OrZero (filePart.index "Offset")).toNat
            (int64OrZero (filePart.index "StartIndex")))) ≠ checksum →
        newRequests (patchLoop env filePath pre out w).world
            (patchPart env filePath filePart out1 (patchLoop env filePath pre out w).world)
          = [.download filePath (int64OrZero (filePart.index "StartIndex"))
              (int64OrZero (filePart.index "Offset"))])) ∧
    ((∀ checksum, filePart.index "Checksum" ≠ some (.str checksum)) →
      patchPart env filePath filePart out1 (patchLoop env filePath pre out w).world
        = .crash .typeAssertion (patchLoop env filePath pre out w).world) ∧
    (∀ checksum, filePart.index "Checksum" = some (.str checksum) →
      int64OrZero (filePart.index "Offset") < 0 →
      patchPart env filePath filePart out1 (patchLoop env filePath pre out w).world
        = .crash .makeSlice (patchLoop env filePath pre out w).world) ∧
    (∀ r ∈ newRequests w (patchLoop env filePath (pre ++ filePart :: post) out w),
      ∃ p ∈ pre ++ filePart :: post, r = .download filePath (partStart p) (partOffset p)) := by
  have e := done_of_val? _ _ hpre
  refine ⟨?_, ?_, ?_, ?_, ?_⟩
  · rw [patchLoop_append]
    conv_lhs => rw [e]
    rfl
  · intro checksum hc ho
    constructor
    · intro heq
      have hp : patchPart env filePath filePart out1 (patchLoop env filePath pre out w).world
          = .done out1 (patchLoop env filePath pre out w).world := by
        simp only [patchPart, hc, not_lt.2 ho, if_false, heq.symm, if_true]
      refine ⟨hp, ?_⟩
      rw [hp]
      simp [newRequests, Outcome.world]
    · intro hne
      have hp : patchPart env filePath filePart out1 (patchLoop env filePath pre out w).world
          = downloadFromServer env filePath (int64OrZero (filePart.index "StartIndex"))
              (int64OrZero (filePart.index "Offset")) out1
              (patchLoop env filePath pre out w).world := by
        simp only [patchPart, hc, not_lt.2 ho, if_false, Ne.symm hne]
      rw [hp]
      unfold newRequests
      rw [downloadFromServer_trace, List.drop_left]
  · intro hnone
    unfold patchPart
    split
    · rename_i c hc
      exact absurd hc (hnone c)
    · rfl
  · intro checksum hc hneg
    simp only [patchPart, hc, hneg, if_true]
  · obtain ⟨l, hl, hq⟩ := patchLoop_requests env filePath (pre ++ filePart :: post) out w
    intro r hr
    unfold newRequests at hr
    rw [hl, List.drop_left] at hr
    exact hq r hr

theorem download_iff_checksum_differs_witness :
    newRequests (patchLoop patchEnv "a/x.txt" [partA] (some ⟨["tmp", "m", "a", "x.txt"], 0⟩)
          (mirrorWith (ascii "AAAAABBBBB") 1)).world
        (patchPart patchEnv "a/x.txt" partC (some ⟨["tmp", "m", "a", "x.txt"], 0⟩)
          (patchLoop patchEnv "a/x.txt" [partA] (some ⟨["tmp", "m", "a", "x.txt"], 0⟩)
            (mirrorWith (ascii "AAAAABBBBB") 1)).world)
      = [.download "a/x.txt" 5 5] :=
  ((download_iff_checksum_differs patchEnv "a/x.txt" [partA] [] partC
    (some ⟨["tmp", "m", "a", "x.txt"], 0⟩) (some ⟨["tmp", "m", "a", "x.txt"], 0⟩)
    (mirrorWith (ascii "AAAAABBBBB") 1) (by decide)).2.1 "378346786" rfl (by decide)).2
      (by decide)

/-! ## Skipping an unchanged file (C4) -/

theorem filePartsFromServer_world (env : Env) (filePath : String) (w : World) :
    (filePartsFromServer env filePath w).world = sent (.fileParts filePath) w := by
  have := fetchJson_world env (.fileParts filePath) w
  unfold filePartsFromServer
  cases h : fetchJson env (.fileParts filePath) w <;> rw [h] at this <;> exact this

/-- The block-patch path always begins by asking for the part list. -/
theorem blockPatch_trace (env : Env) (filePath : String) (file : List String) (fileSize : Int)
    (w : World) :
    ∃ rest, (blockPatch env filePath file fileSize w).world.trace
      = w.trace ++ .fileParts filePath :: rest := by
  have F := traceFrame (fun _ => True)
  have hw := filePartsFromServer_world env filePath w
  unfold blockPatch
  cases hp : filePartsFromServer env filePath w with
  | crash p w1 =>
    rw [hp] at hw
    exact ⟨[], by simpa [Outcome.bind, Outcome.world, sent] using congrArg World.trace hw⟩
  | done fileParts w1 =>
    rw [hp] at hw
    simp only [Outcome.world] at hw
    subst hw
    rw [bind_done]
    have hrest : ∃ l, (if fileParts.length = 0 then
          Outcome.done () (truncate env (openFile (sent (.fileParts filePath) w).fs file) fileSize
            (sent (.fileParts filePath) w))
        else
          (patchLoop env filePath fileParts (openFile (sent (.fileParts filePath) w).fs file)
            (truncate env (openFile (sent (.fileParts filePath) w).fs file) fileSize
              (sent (.fileParts filePath) w))).bind fun _ w3 => Outcome.done () w3).world.trace
        = (sent (.fileParts filePath) w).trace ++ l ∧ ∀ r ∈ l, True := by
      split
      · exact F.of_fsOnly (truncate_fsOnly _ _ _ _)
      · refine F.trans _ (truncate env (openFile (sent (.fileParts filePath) w).fs file) fileSize
          (sent (.fileParts filePath) w)) _ (F.of_fsOnly (truncate_fsOnly _ _ _ _)) ?_
        exact bind_frame F _ _ _ (patchLoop_frame F env (fun _ _ => trivial) _ _ _ _)
          (fun _ w3 _ => F.refl w3)
    obtain ⟨l, hl, _⟩ := hrest
    exact ⟨l, by rw [hl]; simp [sent]⟩

/-- C4. For a record that is not `deleted` whose local path `os.Stat` finds: when the
local size equals `FileSize` and the local modification time equals `LastModified` the
iteration ends at once, leaving the requests issued and the local name space
exactly as they were; otherwise it is the block-patch path that runs, and
its first request is the part listing. Hence the file is skipped if and only
if both values agree. -/
theorem skip_iff_size_and_mtime (env : Env) (fileRec : JVal) (w : World) (status : String)
    (info : Node)
    (hs : fileRec.index "Status" = some (.str status)) (hnd : status ≠ "deleted")
    (hst : stat w.fs (localPath env (strOrEmpty (fileRec.index "FilePath"))) = .info info) :
    ((int64OrZero (fileRec.index "FileSize") = info.size ∧
        int64OrZero (fileRec.index "LastModified") = info.mtime) →
      processFile env fileRec w = .done () w) ∧
    (¬ (int64OrZero (fileRec.index "FileSize") = info.size ∧
        int64OrZero (fileRec.index "LastModified") = info.mtime) →
      processFile env fileRec w
          = blockPatch env (strOrEmpty (fileRec.index "FilePath"))
              (localPath env (strOrEmpty (fileRec.index "FilePath")))
              (int64OrZero (fileRec.index "FileSize")) w ∧
        ∃ rest, newRequests w (processFile env fileRec w)
          = .fileParts (strOrEmpty (fileRec.index "FilePath")) :: rest) ∧
    (processFile env fileRec w = .done () w ↔
      (int64OrZero (fileRec.index "FileSize") = info.size ∧
        int64OrZero (fileRec.index "LastModified") = info.mtime)) := by
  have hyes : (int64OrZero (fileRec.index "FileSize") = info.size ∧
        int64OrZero (fileRec.index "LastModified") = info.mtime) →
      processFile env fileRec w = .done () w := by
    intro hcond
    simp only [processFile, hs, hnd, if_false, hst, hcond, and_self, if_true]
  have hno : ¬ (int64OrZero (fileRec.index "FileSize") = info.size ∧
        int64OrZero (fileRec.index "LastModified") = info.mtime) →
      processFile env fileRec w
          = blockPatch env (strOrEmpty (fileRec.index "FilePath"))
              (localPath env (strOrEmpty (fileRec.index "FilePath")))
              (int64OrZero (fileRec.index "FileSize")) w ∧
        ∃ rest, newRequests w (processFile env fileRec w)
          = .fileParts (strOrEmpty (fileRec.index "FilePath")) :: rest := by
    intro hcond
    have hp : processFile env fileRec w
        = blockPatch env (strOrEmpty (fileRec.index "FilePath"))
            (localPath env (strOrEmpty (fileRec.index "FilePath")))
            (int64OrZero (fileRec.index "FileSize")) w := by
      simp only [processFile, hs, hnd, if_false, hst, hcond]
    refine ⟨hp, ?_⟩
    obtain ⟨rest, hr⟩ := blockPatch_trace env (strOrEmpty (fileRec.index "FilePath"))
      (localPath env (strOrEmpty (fileRec.index "FilePath")))
      (int64OrZero (fileRec.index "FileSize")) w
    refine ⟨rest, ?_⟩
    unfold newRequests
    rw [hp, hr, List.drop_left]
  refine ⟨hyes, hno, ⟨?_, hyes⟩⟩
  intro hdone
  by_contra hcond
  obtain ⟨_, rest, hr⟩ := hno hcond
  rw [hdone] at hr
  simp [newRequests, Outcome.world] at hr

theorem skip_iff_size_and_mtime_witness :
    processFile coldEnv helloRec (mirrorWith (ascii "hello") 1000)
      = .done () (mirrorWith (ascii "hello") 1000) :=
  (skip_iff_size_and_mtime coldEnv helloRec (mirrorWith (ascii "hello") 1000) "present"
    (.file (ascii "hello") 1000) rfl (by decide) rfl).1 (by decide)

/-! ## Deleted records (C5) -/

theorem stat_of_none (fs : FS) (p : List String) (h : fs p = none) (n : Node) :
    stat fs p ≠ .info n := by
  unfold stat
  split
  · split <;> simp
  · simp [h]

/-- C5. A directory record and a file record whose `Status` is `deleted` are always
processed to the end, from any local state; afterwards nothing exists at the
resolved path or below it, and `os.Stat` finds nothing there. -/
theorem deleted_record_removes (env : Env) (c : Int) (r : JVal) (w : World)
    (hs : r.index "Status" = some (.str "deleted")) :
    ((processDir env c r w).val? = some () ∧
      (∀ q, localPath env (strOrEmpty (r.index "FilePath")) <+: q →
        (processDir env c r w).world.fs q = none) ∧
      (∀ n, stat (processDir env c r w).world.fs
        (localPath env (strOrEmpty (r.index "FilePath"))) ≠ .info n)) ∧
    ((processFile env r w).val? = some () ∧
      (∀ q, localPath env (strOrEmpty (r.index "FilePath")) <+: q →
        (processFile env r w).world.fs q = none) ∧
      (∀ n, stat (processFile env r w).world.fs
        (localPath env (strOrEmpty (r.index "FilePath"))) ≠ .info n)) := by
  have hd : processDir env c r w
      = .done () (removeAll (localPath env (strOrEmpty (r.index "FilePath"))) w) := by
    simp only [processDir, hs, if_true]
  have hf : processFile env r w
      = .done () (removeAll (localPath env (strOrEmpty (r.index "FilePath"))) w) := by
    simp only [processFile, hs, if_true]
  have hrm : ∀ q, localPath env (strOrEmpty (r.index "FilePath")) <+: q →
      (removeAll (localPath env (strOrEmpty (r.index "FilePath"))) w).fs q = none := by
    intro q hq
    simp [removeAll, hq]
  rw [hd, hf]
  simp only [Outcome.val?, Outcome.world, true_and]
  exact ⟨⟨hrm, fun n => stat_of_none _ _ (hrm _ (List.prefix_refl _)) n⟩,
    ⟨hrm, fun n => stat_of_none _ _ (hrm _ (List.prefix_refl _)) n⟩⟩

theorem deleted_record_removes_witness :
    (processDir patchEnv 0 deletedRec (mirrorWith (ascii "hello") 1000)).val? = some () ∧
      (processDir patchEnv 0 deletedRec (mirrorWith (ascii "hello") 1000)).world.fs
        ["tmp", "m", "a", "x.txt"] = none :=
  have h := (deleted_record_removes patchEnv 0 deletedRec (mirrorWith (ascii "hello") 1000) rfl).1
  ⟨h.1, h.2.1 _ (by decide)⟩

/-! ## The full fetch of a file that is not there (C3) -/

theorem find?_none_of_all {α : Type} (l : List α) (p : α → Bool) (h : ∀ x ∈ l, p x = false) :
    l.find? p = none := by
  induction l with
  | nil => rfl
  | cons a t ih =>
    have ha := h a (List.mem_cons_self a t)
    simp only [List.find?, ha]
    exact ih fun x hx => h x (List.mem_cons_of_mem a hx)

theorem ancestors_all (fs : FS) (p : List String) (h : ∀ q ∈ ancestors p, isDir (fs q) = true) :
    (ancestors p).all (fun q => isDir (fs q)) = true := by
  rw [List.all_eq_true]
  exact h

theorem stat_of_reachable (fs : FS) (p : List String)
    (h : ∀ q ∈ ancestors p, isDir (fs q) = true) :
    stat fs p = match fs p with
      | some n => .info n
      | none => .notExist := by
  unfold stat
  rw [find?_none_of_all]
  intro q hq
  simp [h q hq]

theorem stat_info (fs : FS) (p : List String) (n : Node) (h : stat fs p = .info n) :
    (∀ q ∈ ancestors p, isDir (fs q) = true) ∧ fs p = some n := by
  unfold stat at h
  split at h
  · split at h <;> cases h
  · rename_i hf
    constructor
    · intro q hq
      have := List.find?_eq_none.1 hf q hq
      simpa using this
    · split at h
      · rename_i m hm
        simp only [StatResult.info.injEq] at h
        rw [hm, h]
      · cases h

/-- The record `a/x.txt` arrives while the mirror has no directory `a`: the path does not
exist, `os.Create` fails, the download is requested all the same, and
afterwards there still is no file. -/
theorem full_fetch_counterexample :
    stat emptyWorld.fs ["tmp", "m", "a", "x.txt"] = .notExist ∧
      (processFile coldEnv helloRec emptyWorld).val? = some () ∧
      newRequests emptyWorld (processFile coldEnv helloRec emptyWorld)
        = [.download "a/x.txt" 0 5] ∧
      (processFile coldEnv helloRec emptyWorld).world.fs ["tmp", "m", "a", "x.txt"] = none := by
  refine ⟨by decide, by decide, by decide, by decide⟩

/-- C3, amended. For a record that is not `deleted`, whose local path does not exist
while every directory above it does: `os.Create` succeeds and leaves the empty
file, and the iteration issues exactly the request `download(filePath, 0, FileSize)`,
whatever the reply. When the request is answered the iteration ends normally
and the local file consists of the first `FileSize` bytes of the body (all of
the body when it is shorter, nothing when `FileSize` is negative), which are
`FileSize` bytes when `FileSize` is not negative and the body has that many.
When there is no response the worker panics and the file stays empty. -/
theorem full_fetch_of_absent_file (env : Env) (fileRec : JVal) (w : World) (status : String)
    (hs : fileRec.index "Status" = some (.str status)) (hnd : status ≠ "deleted")
    (hst : stat w.fs (localPath env (strOrEmpty (fileRec.index "FilePath"))) = .notExist)
    (hparent : ∀ q ∈ ancestors (localPath env (strOrEmpty (fileRec.index "FilePath"))),
      isDir (w.fs q) = true) :
    (create env (localPath env (strOrEmpty (fileRec.index "FilePath"))) w).1
        = some ⟨localPath env (strOrEmpty (fileRec.index "FilePath")), 0⟩ ∧
      (create env (localPath env (strOrEmpty (fileRec.index "FilePath"))) w).2.fs
          (localPath env (strOrEmpty (fileRec.index "FilePath")))
        = some (.file [] (env.clock w.trace)) ∧
      newRequests w (processFile env fileRec w)
        = [.download (strOrEmpty (fileRec.index "FilePath")) 0
            (int64OrZero (fileRec.index "FileSize"))] ∧
      (∀ raw j, env.srv w.trace (.download (strOrEmpty (fileRec.index "FilePath")) 0
          (int64OrZero (fileRec.index "FileSize"))) = .body raw j →
        (processFile env fileRec w).val? = some () ∧
        (∃ t, (processFile env fileRec w).world.fs
              (localPath env (strOrEmpty (fileRec.index "FilePath")))
            = some (.file (raw.take (int64OrZero (fileRec.index "FileSize")).toNat) t)) ∧
        (0 ≤ int64OrZero (fileRec.index "FileSize") →
          int64OrZero (fileRec.index "FileSize") ≤ raw.length →
          (((raw.take (int64OrZero (fileRec.index "FileSize")).toNat).length : Nat) : Int)
            = int64OrZero (fileRec.index "FileSize"))) ∧
      (env.srv w.trace (.download (strOrEmpty (fileRec.index "FilePath")) 0
          (int64OrZero (fileRec.index "FileSize"))) = .noResponse →
        (processFile env fileRec w).panic? = some .nilDereference ∧
        (processFile env fileRec w).world.fs
            (localPath env (strOrEmpty (fileRec.index "FilePath")))
          = some (.file [] (env.clock w.trace))) := by
  generalize hp : localPath env (strOrEmpty (fileRec.index "FilePath")) = p at *
  generalize hfp : strOrEmpty (fileRec.index "FilePath") = fp at *
  generalize hn : int64OrZero (fileRec.index "FileSize") = size at *
  have hnone : w.fs p = none := by
    rw [stat_of_reachable _ _ hparent] at hst
    cases h : w.fs p with
    | none => rfl
    | some n => rw [h] at hst; cases hst
  have hcr : create env p w = (some ⟨p, 0⟩,
      { w with fs := fun q => if q = p then some (.file [] (env.clock w.trace)) else w.fs q }) := by
    have hnd2 : isDir (w.fs p) = false := by rw [hnone]; rfl
    simp only [create, ancestors_all _ _ hparent, hnd2, Bool.not_false, Bool.and_self, if_true]
  have hpf : processFile env fileRec w
      = (downloadFromServer env fp 0 size (create env p w).1 (create env p w).2).bind
          fun _ w1 => .done () w1 := by
    simp only [processFile, hs, hnd, if_false, hst, hp, hfp, hn]
  have htr : (processFile env fileRec w).world.trace = w.trace ++ [.download fp 0 size] := by
    have := downloadFromServer_trace env fp 0 size (create env p w).1 (create env p w).2
    rw [hcr] at this
    rw [hpf, hcr]
    cases hd : downloadFromServer env fp 0 size (some ⟨p, 0⟩)
        { w with fs := fun q => if q = p then some (.file [] (env.clock w.trace)) else w.fs q } with
    | done o w1 => rw [hd] at this; exact this
    | crash q w1 => rw [hd] at this; exact this
  refine ⟨by rw [hcr], by rw [hcr]; simp, ?_, ?_, ?_⟩
  · unfold newRequests
    rw [htr, List.drop_left]
  · intro raw j hdl
    have hlen : 0 ≤ size → size ≤ raw.length → ((raw.take size.toNat).length : Int) = size := by
      intro h1 h2
      rw [List.length_take]
      omega
    rw [hpf, hcr]
    simp only [downloadFromServer, hdl, seek, copyN]
    by_cases hd : List.take size.toNat raw = []
    · simp only [hd, if_true, lt_self_iff_false, if_false]
      refine ⟨rfl, ⟨env.clock w.trace, ?_⟩, ?_⟩
      · simp [Outcome.bind, Outcome.world, sent]
      · rw [hd] at hlen; exact hlen
    · simp only [hd, if_false, lt_self_iff_false]
      refine ⟨rfl, ⟨env.clock (w.trace ++ [.download fp 0 size]), ?_⟩, hlen⟩
      simp [Outcome.bind, Outcome.world, sent, updateFile, overwrite, resize]
  · intro hdl
    rw [hpf, hcr]
    simp only [downloadFromServer, hdl]
    refine ⟨rfl, ?_⟩
    simp [Outcome.bind, Outcome.world, sent]

theorem full_fetch_of_absent_file_witness :
    newRequests mirrorDirs (processFile coldEnv helloRec mirrorDirs)
        = [.download "a/x.txt" 0 5] ∧
      (processFile coldEnv helloRec mirrorDirs).val? = some () ∧
      ∃ t, (processFile coldEnv helloRec mirrorDirs).world.fs ["tmp", "m", "a", "x.txt"]
        = some (.file (ascii "hello") t) :=
  have h := full_fetch_of_absent_file coldEnv helloRec mirrorDirs "present"
    rfl (by decide) (by decide) (by decide)
  have h1 := h.2.2.2.1 (ascii "hello") none rfl
  ⟨h.2.2.1, h1.1, h1.2.1⟩

/-! ## The block patch (C1) -/

theorem resize_length (d : Bytes) (n : Nat) : (resize d n).length = n := by
  simp only [resize, List.length_append, List.length_take, List.length_replicate]
  omega

theorem resize_of_le (d : Bytes) (n : Nat) (h : n ≤ d.length) : resize d n = d.take n := by
  simp [resize, Nat.sub_eq_zero_of_le h]

theorem overwrite_eq (d new : Bytes) (s : Nat) (h : s + new.length ≤ d.length) :
    overwrite d s new = d.take s ++ new ++ d.drop (s + new.length) := by
  unfold overwrite
  rw [resize_of_le d s (by omega)]

theorem overwrite_length (d new : Bytes) (s : Nat) (h : s + new.length ≤ d.length) :
    (overwrite d s new).length = d.length := by
  rw [overwrite_eq d new s h]
  simp only [List.length_append, List.length_take, List.length_drop]
  omega

theorem overwrite_take (d new : Bytes) (s : Nat) (h : s + new.length ≤ d.length) :
    (overwrite d s new).take s = d.take s := by
  rw [overwrite_eq d new s h, List.append_assoc]
  rw [List.take_append_of_le_length (by rw [List.length_take]; omega)]
  rw [List.take_take]
  simp

theorem overwrite_drop (d new : Bytes) (s : Nat) (h : s + new.length ≤ d.length) :
    (overwrite d s new).drop (s + new.length) = d.drop (s + new.length) := by
  rw [overwrite_eq d new s h]
  have hl : (d.take s ++ new).length = s + new.length := by
    rw [List.length_append, List.length_take]; omega
  rw [← hl, List.drop_left]

theorem overwrite_block (d new : Bytes) (s : Nat) (h : s + new.length ≤ d.length) :
    ((overwrite d s new).drop s).take new.length = new := by
  rw [overwrite_eq d new s h, List.append_assoc]
  have hl : (d.take s).length = s := by rw [List.length_take]; omega
  have hd := List.drop_left (d.take s) (new ++ d.drop (s + new.length))
  rw [hl] at hd
  rw [hd, List.take_left]

theorem block_congr_drop (x y : Bytes) (k s o : Nat) (h : x.drop k = y.drop k) (hk : k ≤ s) :
    (x.drop s).take o = (y.drop s).take o := by
  have hx : x.drop s = (x.drop k).drop (s - k) := by
    rw [List.drop_drop]; congr 1; omega
  have hy : y.drop s = (y.drop k).drop (s - k) := by
    rw [List.drop_drop]; congr 1; omega
  rw [hx, hy, h]

theorem block_congr_take (x y : Bytes) (k s o : Nat) (h : x.take k = y.take k) (hk : s + o ≤ k) :
    (x.drop s).take o = (y.drop s).take o := by
  have hx : ∀ z : Bytes, (z.drop s).take o = ((z.take k).drop s).take o := by
    intro z
    rw [List.drop_take, List.take_take]
    congr 1
    omega
  rw [hx x, hx y, h]

theorem index_of_partChecksum (filePart : JVal) (c : String)
    (h : partChecksum filePart = some c) : filePart.index "Checksum" = some (.str c) := by
  unfold partChecksum at h
  split at h
  · rename_i c1 hc
    simp only [Option.some.injEq] at h
    rw [hc, h]
  · cases h

theorem tiles_cons (pos size : Int) (filePart : JVal) (rest : List JVal) :
    tiles pos (filePart :: rest) size = true ↔
      partStart filePart = pos ∧ 0 ≤ partOffset filePart ∧
        (∃ c, partChecksum filePart = some c) ∧
        tiles (pos + partOffset filePart) rest size = true := by
  simp [tiles, Option.isSome_iff_exists, and_assoc]

theorem tiles_bounds (size : Int) (parts : List JVal) :
    ∀ pos : Int, tiles pos parts size = true →
      pos ≤ size ∧ ∀ filePart ∈ parts, pos ≤ partStart filePart ∧ 0 ≤ partOffset filePart ∧
        partStart filePart + partOffset filePart ≤ size := by
  induction parts with
  | nil =>
    intro pos h
    simp only [tiles, decide_eq_true_eq] at h
    exact ⟨le_of_eq h, fun _ hm => by cases hm⟩
  | cons a rest ih =>
    intro pos h
    obtain ⟨h1, h2, _, h4⟩ := (tiles_cons pos size a rest).1 h
    obtain ⟨h5, h6⟩ := ih _ h4
    refine ⟨by omega, ?_⟩
    intro q hq
    rcases List.mem_cons.1 hq with rfl | hq
    · exact ⟨by omega, h2, by omega⟩
    · obtain ⟨h7, h8, h9⟩ := h6 q hq
      exact ⟨by omega, h8, h9⟩

/-- One iteration of the part loop on a block inside a file of the target
length, against a server that delivers the requested ranges. -/
theorem patchPart_step (env : Env) (filePath : String) (p : List String) (content : Bytes)
    (hdl : ∀ (hist : List Request) (s l : Int), 0 ≤ s → 0 ≤ l → s + l ≤ content.length →
      ∃ j, env.srv hist (.download filePath s l)
        = .body ((content.drop s.toNat).take l.toNat) j)
    (filePart : JVal) (c : String) (hc : partChecksum filePart = some c)
    (hs : 0 ≤ partStart filePart) (ho : 0 ≤ partOffset filePart)
    (hN : partStart filePart + partOffset filePart ≤ content.length)
    (w : World) (cur : Bytes) (t : Int) (off : Nat)
    (hfs : w.fs p = some (.file cur t)) (hlen : cur.length = content.length) :
    ∃ cur1 t1 off1 w1,
      patchPart env filePath filePart (some ⟨p, off⟩) w = .done (some ⟨p, off1⟩) w1 ∧
      w1.fs p = some (.file cur1 t1) ∧ cur1.length = content.length ∧
      cur1.take (partStart filePart).toNat = cur.take (partStart filePart).toNat ∧
      cur1.drop ((partStart filePart).toNat + (partOffset filePart).toNat)
        = cur.drop ((partStart filePart).toNat + (partOffset filePart).toNat) ∧
      (c = sprintUint32 (crc32 (block cur filePart)) → block cur1 filePart = block cur filePart) ∧
      (c ≠ sprintUint32 (crc32 (block cur filePart)) →
        block cur1 filePart = block content filePart) := by
  have hread : readAt w.fs (some ⟨p, off⟩) (partOffset filePart).toNat (partStart filePart)
      = block cur filePart := by
    simp only [readAt, not_lt.2 hs, if_false, hfs, block]
  have hpp : patchPart env filePath filePart (some ⟨p, off⟩) w
      = if c = sprintUint32 (crc32 (block cur filePart)) then .done (some ⟨p, off⟩) w
        else downloadFromServer env filePath (partStart filePart) (partOffset filePart)
          (some ⟨p, off⟩) w := by
    have ho1 : ¬ int64OrZero (filePart.index "Offset") < 0 := not_lt.2 ho
    have hread1 := hread
    unfold partOffset partStart at hread1
    simp only [patchPart, index_of_partChecksum _ _ hc, ho1, if_false, hread1]
    rfl
  by_cases heq : c = sprintUint32 (crc32 (block cur filePart))
  · refine ⟨cur, t, off, w, ?_, hfs, hlen, rfl, rfl, fun _ => rfl, fun h => absurd heq h⟩
    rw [hpp, if_pos heq]
  · obtain ⟨j, hj⟩ := hdl w.trace _ _ hs ho hN
    have hblen : (block content filePart).length = (partOffset filePart).toNat := by
      simp only [block, List.length_take, List.length_drop]
      omega
    have htake : (block content filePart).take (partOffset filePart).toNat
        = block content filePart := by
      rw [← hblen, List.take_length]
    have hcopy : ∀ (h : File) (w0 : World),
        copyN env (some h) (block content filePart) (partOffset filePart) w0
          = if block content filePart = [] then (some h, w0)
            else (some { h with offset := h.offset + (block content filePart).length },
              updateFile env h.path (fun d => overwrite d h.offset (block content filePart)) w0) := by
      intro h w0
      simp only [copyN, htake]
    have hj1 : env.srv w.trace (.download filePath (partStart filePart) (partOffset filePart))
        = .body (block content filePart) j := hj
    rw [hpp, if_neg heq]
    simp only [downloadFromServer, hj1, seek, not_lt.2 hs, if_false, hcopy]
    by_cases hd : block content filePart = []
    · simp only [hd, if_true]
      refine ⟨cur, t, _, _, rfl, by simpa [sent] using hfs, hlen, rfl, rfl, fun h => absurd h heq,
        fun _ => ?_⟩
      have h0 : (partOffset filePart).toNat = 0 := by rw [← hblen, hd]; rfl
      simp [block, h0]
    · simp only [hd, if_false]
      have hsum : (partStart filePart).toNat + (block content filePart).length ≤ cur.length := by
        rw [hblen, hlen]; omega
      refine ⟨overwrite cur (partStart filePart).toNat (block content filePart),
        env.clock (w.trace ++ [.download filePath (partStart filePart) (partOffset filePart)]),
        _, _, rfl, ?_, ?_, ?_, ?_, fun h => absurd h heq, fun _ => ?_⟩
      · simp [updateFile, sent, hfs]
      · rw [overwrite_length _ _ _ hsum, hlen]
      · exact overwrite_take _ _ _ hsum
      · rw [← hblen]; exact overwrite_drop _ _ _ hsum
      · have := overwrite_block cur (block content filePart) (partStart filePart).toNat hsum
        rw [hblen] at this
        exact this

/-- The part loop over records that tile the rest of the file. -/
theorem patchLoop_tiles (env : Env) (filePath : String) (p : List String) (content : Bytes)
    (hdl : ∀ (hist : List Request) (s l : Int), 0 ≤ s → 0 ≤ l → s + l ≤ content.length →
      ∃ j, env.srv hist (.download filePath s l)
        = .body ((content.drop s.toNat).take l.toNat) j)
    (parts : List JVal) :
    ∀ (pos : Int) (w : World) (cur : Bytes) (t : Int) (off : Nat),
      0 ≤ pos → tiles pos parts content.length = true →
      w.fs p = some (.file cur t) → cur.length = content.length →
      ∃ final t1 off1 w1,
        patchLoop env filePath parts (some ⟨p, off⟩) w = .done (some ⟨p, off1⟩) w1 ∧
        w1.fs p = some (.file final t1) ∧ final.length = content.length ∧
        final.take pos.toNat = cur.take pos.toNat ∧
        ∀ filePart ∈ parts,
          (partChecksum filePart = some (sprintUint32 (crc32 (block cur filePart))) →
            block final filePart = block cur filePart) ∧
          (partChecksum filePart ≠ some (sprintUint32 (crc32 (block cur filePart))) →
            block final filePart = block content filePart) := by
  induction parts with
  | nil =>
    intro pos w cur t off _ _ hfs hlen
    exact ⟨cur, t, off, w, rfl, hfs, hlen, rfl, fun _ hm => by cases hm⟩
  | cons a rest ih =>
    intro pos w cur t off hpos ht hfs hlen
    obtain ⟨h1, h2, ⟨c, hc⟩, h4⟩ := (tiles_cons pos _ a rest).1 ht
    obtain ⟨h5, h6⟩ := tiles_bounds _ rest _ h4
    obtain ⟨cur1, t1, off1, w1, hstep, hfs1, hlen1, htake1, hdrop1, hm1, hn1⟩ :=
      patchPart_step env filePath p content hdl a c hc (by omega) h2 (by omega) w cur t off
        hfs hlen
    obtain ⟨final, t2, off2, w2, hloop, hfs2, hlen2, htake2, hrest⟩ :=
      ih (pos + partOffset a) w1 cur1 t1 off1 (by omega) h4 hfs1 hlen1
    have hsum : (pos + partOffset a).toNat = (partStart a).toNat + (partOffset a).toNat := by
      omega
    refine ⟨final, t2, off2, w2, ?_, hfs2, hlen2, ?_, ?_⟩
    · simp only [patchLoop, hstep, Outcome.bind]
      exact hloop
    · have := congrArg (List.take pos.toNat) htake2
      rw [List.take_take, List.take_take] at this
      have hmin : min pos.toNat (pos + partOffset a).toNat = pos.toNat := by omega
      rw [hmin] at this
      rw [this, ← h1, htake1]
    · intro q hq
      rcases List.mem_cons.1 hq with rfl | hq
      · have hb : block final q = block cur1 q := by
          unfold block
          exact block_congr_take _ _ _ _ _ htake2 (by omega)
        rw [hb, hc]
        constructor
        · intro he
          simp only [Option.some.injEq] at he
          exact hm1 he
        · intro he
          exact hn1 fun h => he (by rw [h])
      · obtain ⟨hb1, hb2, hb3⟩ := h6 q hq
        have hb : block cur1 q = block cur q := by
          unfold block
          exact block_congr_drop _ _ _ _ _ hdrop1 (by omega)
        have := hrest q hq
        rw [hb] at this
        exact this

/-- C1. The block-patch path on an existing regular file, for a part list that
tiles `[0, FileSize)` and a server that delivers the bytes of `content` for every
range inside it: the path runs to its end; the file then has exactly
`FileSize` bytes; a block whose checksum differed from that of the local block
holds the server's bytes of that range; a block whose checksum agreed is what
it was after the truncation to `FileSize`, which is what the file held there
before whenever the block lies inside the old file. -/
theorem block_patch_correct (env : Env) (filePath : String) (p : List String)
    (fileSize : Int) (w : World) (data : Bytes) (mtime : Int) (parts : List JVal)
    (content raw : Bytes)
    (hlocal : stat w.fs p = .info (.file data mtime))
    (hparts : env.srv w.trace (.fileParts filePath) = .body raw (some (.arr parts)))
    (htiles : tiles 0 parts fileSize = true)
    (hcontent : (content.length : Int) = fileSize)
    (hdl : ∀ (hist : List Request) (s l : Int), 0 ≤ s → 0 ≤ l → s + l ≤ fileSize →
      ∃ j, env.srv hist (.download filePath s l)
        = .body ((content.drop s.toNat).take l.toNat) j) :
    (blockPatch env filePath p fileSize w).val? = some () ∧
    ∃ final t, (blockPatch env filePath p fileSize w).world.fs p = some (.file final t) ∧
      (final.length : Int) = fileSize ∧
      ∀ filePart ∈ parts,
        (partChecksum filePart
            = some (sprintUint32 (crc32 (block (resize data fileSize.toNat) filePart))) →
          block final filePart = block (resize data fileSize.toNat) filePart) ∧
        (partChecksum filePart
            ≠ some (sprintUint32 (crc32 (block (resize data fileSize.toNat) filePart))) →
          block final filePart = block content filePart) ∧
        (partStart filePart + partOffset filePart ≤ data.length →
          block (resize data fileSize.toNat) filePart = block data filePart) := by
  subst hcontent
  obtain ⟨hreach, hfs⟩ := stat_info _ _ _ hlocal
  have hopen : openFile (sent (.fileParts filePath) w).fs p = some ⟨p, 0⟩ := by
    have hf : isFile (w.fs p) = true := by rw [hfs]; rfl
    simp only [openFile, sent, ancestors_all _ _ hreach, hf, Bool.and_self, if_true]
  have htr : truncate env (some ⟨p, 0⟩) (content.length : Int) (sent (.fileParts filePath) w)
      = { sent (.fileParts filePath) w with
          fs := fun q => if q = p then
              some (.file (resize data content.length) (env.clock (w.trace ++ [.fileParts filePath])))
            else w.fs q } := by
    have : ¬ ((content.length : Int) < 0) := by omega
    simp [truncate, this, updateFile, sent, hfs]
  have hbounds := (tiles_bounds _ parts 0 htiles).2
  have hold : ∀ filePart ∈ parts, partStart filePart + partOffset filePart ≤ data.length →
      block (resize data (content.length : Int).toNat) filePart = block data filePart := by
    intro q hq hle
    obtain ⟨hb1, hb2, hb3⟩ := hbounds q hq
    unfold block
    apply block_congr_take _ _ (min content.length data.length)
    · simp only [Int.toNat_ofNat, resize]
      rw [List.take_append_of_le_length (by rw [List.length_take]), List.take_take]
      congr 1
      omega
    · omega
  have hbp : blockPatch env filePath p (content.length : Int) w
      = if parts.length = 0 then
          .done () (truncate env (some ⟨p, 0⟩) (content.length : Int) (sent (.fileParts filePath) w))
        else (patchLoop env filePath parts (some ⟨p, 0⟩)
          (truncate env (some ⟨p, 0⟩) (content.length : Int)
            (sent (.fileParts filePath) w))).bind fun _ w3 => .done () w3 := by
    simp only [blockPatch, filePartsFromServer, fetchJson, hparts, bind_done, mustArray, hopen]
  obtain ⟨final, t1, off1, w1, hloop, hfs1, hlen1, _, hblocks⟩ :=
    patchLoop_tiles env filePath p content hdl parts 0
      (truncate env (some ⟨p, 0⟩) (content.length : Int) (sent (.fileParts filePath) w))
      (resize data content.length) (env.clock (w.trace ++ [.fileParts filePath])) 0
      (le_refl _) htiles (by rw [htr]; simp) (resize_length _ _)
  have hres : ∀ filePart ∈ parts,
      (partChecksum filePart
          = some (sprintUint32 (crc32 (block (resize data (content.length : Int).toNat) filePart))) →
        block final filePart = block (resize data (content.length : Int).toNat) filePart) ∧
      (partChecksum filePart
          ≠ some (sprintUint32 (crc32 (block (resize data (content.length : Int).toNat) filePart))) →
        block final filePart = block content filePart) ∧
      (partStart filePart + partOffset filePart ≤ data.length →
        block (resize data (content.length : Int).toNat) filePart = block data filePart) := by
    intro q hq
    have := hblocks q hq
    simp only [Int.toNat_ofNat] at this ⊢
    exact ⟨this.1, this.2, by simpa using hold q hq⟩
  rw [hbp]
  by_cases hz : parts.length = 0
  · have hnil : parts = [] := List.length_eq_zero.1 hz
    subst hnil
    simp only [patchLoop, Outcome.done.injEq] at hloop
    obtain ⟨_, hw1⟩ := hloop
    simp only [List.length_nil, if_true, Outcome.val?, Outcome.world, true_and]
    rw [hw1]
    exact ⟨final, t1, hfs1, by rw [hlen1], hres⟩
  · simp only [hz, if_false, hloop, bind_done, Outcome.val?, Outcome.world, true_and]
    exact ⟨final, t1, hfs1, by rw [hlen1], hres⟩

theorem block_patch_correct_witness :
    (blockPatch patchEnv "a/x.txt" ["tmp", "m", "a", "x.txt"] 10
        (mirrorWith (ascii "AAAAABBBBB") 1)).val? = some () ∧
      (blockPatch patchEnv "a/x.txt" ["tmp", "m", "a", "x.txt"] 10
        (mirrorWith (ascii "AAAAABBBBB") 1)).world.fs ["tmp", "m", "a", "x.txt"]
        = some (.file (ascii "AAAAACCCCC") 2000) ∧
      newRequests (mirrorWith (ascii "AAAAABBBBB") 1)
        (blockPatch patchEnv "a/x.txt" ["tmp", "m", "a", "x.txt"] 10
          (mirrorWith (ascii "AAAAABBBBB") 1))
        = [.fileParts "a/x.txt", .download "a/x.txt" 5 5] :=
  ⟨(block_patch_correct patchEnv "a/x.txt" ["tmp", "m", "a", "x.txt"] 10
      (mirrorWith (ascii "AAAAABBBBB") 1) (ascii "AAAAABBBBB") 1 [partA, partC]
      (ascii "AAAAACCCCC") [] (by decide) rfl (by decide) (by decide)
      (fun _ _ _ _ _ _ => ⟨none, rfl⟩)).1, by decide, by decide⟩

/-! ## Failing requests and malformed records (C10) -/

/-- C10 at its failing inputs. A directory record without a `Status` string makes the
single-value type assertion of line 77 panic; a `/dirs` request without a
response makes `resp.Body` dereference nil; a `/dirs` body that is no JSON leaves a
nil `*Json` whose `MustArray` dereferences nil. In all three cases the cycle ends in
the panic: it neither reaches the idle branch nor sleeps. -/
theorem malformed_reply_aborts_cycle :
    ((cycle noStatusEnv (10 * second) ⟨0, second⟩ emptyWorld).panic? = some .typeAssertion ∧
      (cycle noStatusEnv (10 * second) ⟨0, second⟩ emptyWorld).world.slept = []) ∧
    ((cycle unreachableEnv (10 * second) ⟨0, second⟩ emptyWorld).panic?
        = some .nilDereference ∧
      (cycle unreachableEnv (10 * second) ⟨0, second⟩ emptyWorld).world.slept = []) ∧
    ((cycle garbledEnv (10 * second) ⟨0, second⟩ emptyWorld).panic? = some .nilDereference ∧
      (cycle garbledEnv (10 * second) ⟨0, second⟩ emptyWorld).world.slept = []) := by
  refine ⟨⟨by decide, by decide⟩, ⟨by decide, by decide⟩, ⟨by decide, by decide⟩⟩

/-! ## A whole cycle (C6) -/

/-- What a download that returns has done to the file its handle points at. -/
theorem download_into (env : Env) (filePath : String) (s l : Int) (f : List String)
    (off : Nat) (w : World) (cur : Bytes) (t : Int) (out1 : Option File) (w1 : World)
    (hfs : w.fs f = some (.file cur t)) (hs : 0 ≤ s)
    (h : downloadFromServer env filePath s l (some ⟨f, off⟩) w = .done out1 w1) :
    ∃ raw j t1 off1, env.srv w.trace (.download filePath s l) = .body raw j ∧
      out1 = some ⟨f, off1⟩ ∧ (∀ q, q ≠ f → w1.fs q = w.fs q) ∧
      w1.fs f = some (.file
        (if raw.take l.toNat = [] then cur else overwrite cur s.toNat (raw.take l.toNat)) t1) := by
  unfold downloadFromServer at h
  split at h
  · cases h
  · rename_i raw j hsrv
    simp only [seek, not_lt.2 hs, if_false, copyN, Outcome.done.injEq] at h
    obtain ⟨h1, h2⟩ := h
    by_cases hd : List.take l.toNat raw = []
    · simp only [hd, if_true] at h1 h2 ⊢
      subst h2
      exact ⟨raw, j, t, _, hsrv, h1.symm, fun _ _ => rfl, by rw [if_pos hd]; exact hfs⟩
    · simp only [hd, if_false] at h1 h2 ⊢
      subst h2
      refine ⟨raw, j, env.clock (w.trace ++ [.download filePath s l]), _, hsrv, h1.symm, ?_, ?_⟩
      · intro q hq
        simp [updateFile, sent, hfs, hq]
      · rw [if_neg hd]
        simp [updateFile, sent, hfs]

theorem patchPart_size (env : Env) (filePath : String) (f : List String) (filePart : JVal)
    (off : Nat) (w : World) (cur : Bytes) (t : Int) (out1 : Option File) (w1 : World)
    (hfs : w.fs f = some (.file cur t)) (hs : 0 ≤ partStart filePart)
    (hb : partStart filePart + partOffset filePart ≤ cur.length)
    (h : patchPart env filePath filePart (some ⟨f, off⟩) w = .done out1 w1) :
    (∃ off1, out1 = some ⟨f, off1⟩) ∧ (∀ q, q ≠ f → w1.fs q = w.fs q) ∧
      ∃ cur1 t1, w1.fs f = some (.file cur1 t1) ∧ cur1.length = cur.length := by
  unfold patchPart at h
  split at h
  · dsimp only at h
    split at h
    · cases h
    · rename_i hoff
      split at h
      · simp only [Outcome.done.injEq] at h
        obtain ⟨h1, h2⟩ := h
        subst h2
        exact ⟨⟨off, h1.symm⟩, fun _ _ => rfl, cur, t, hfs, rfl⟩
      · obtain ⟨raw, j, t1, off1, _, ho, hframe, hnew⟩ :=
          download_into env filePath _ _ f off w cur t out1 w1 hfs hs h
        refine ⟨⟨off1, ho⟩, hframe, _, t1, hnew, ?_⟩
        split
        · rfl
        · apply overwrite_length
          have hle : (List.take (int64OrZero (filePart.index "Offset")).toNat raw).length
              ≤ (int64OrZero (filePart.index "Offset")).toNat := List.length_take_le _ _
          simp only [partStart, partOffset] at hs hb ⊢
          omega
  · cases h

theorem patchLoop_size (env : Env) (filePath : String) (f : List String) (n : Nat)
    (parts : List JVal) :
    ∀ (off : Nat) (w : World) (cur : Bytes) (t : Int) (out1 : Option File) (w1 : World),
      (∀ filePart ∈ parts, 0 ≤ partStart filePart ∧ partStart filePart + partOffset filePart ≤ n) →
      w.fs f = some (.file cur t) → cur.length = n →
      patchLoop env filePath parts (some ⟨f, off⟩) w = .done out1 w1 →
      (∀ q, q ≠ f → w1.fs q = w.fs q) ∧
        ∃ cur1 t1, w1.fs f = some (.file cur1 t1) ∧ cur1.length = n := by
  induction parts with
  | nil =>
    intro off w cur t out1 w1 _ hfs hlen h
    simp only [patchLoop, Outcome.done.injEq] at h
    obtain ⟨_, h2⟩ := h
    subst h2
    exact ⟨fun _ _ => rfl, cur, t, hfs, hlen⟩
  | cons a rest ih =>
    intro off w cur t out1 w1 hb hfs hlen h
    unfold patchLoop at h
    cases hp : patchPart env filePath a (some ⟨f, off⟩) w with
    | crash p w2 => rw [hp] at h; cases h
    | done out2 w2 =>
      rw [hp, bind_done] at h
      obtain ⟨hb1, hb2⟩ := hb a (List.mem_cons_self a rest)
      obtain ⟨⟨off2, ho2⟩, hframe2, cur2, t2, hfs2, hlen2⟩ :=
        patchPart_size env filePath f a off w cur t out2 w2 hfs hb1 (by rw [hlen]; exact hb2) hp
      subst ho2
      obtain ⟨hframe3, cur3, t3, hfs3, hlen3⟩ :=
        ih off2 w2 cur2 t2 out1 w1 (fun q hq => hb q (List.mem_cons_of_mem a hq)) hfs2
          (by rw [hlen2, hlen]) h
      exact ⟨fun q hq => by rw [hframe3 q hq, hframe2 q hq], cur3, t3, hfs3, hlen3⟩

theorem blockPatch_size (env : Env) (hfixed : ∀ hist r, env.srv hist r = env.srv [] r)
    (filePath : String) (f : List String) (size : Int) (w w1 : World) (data : Bytes) (t : Int)
    (hfs : w.fs f = some (.file data t))
    (hanc : ∀ q ∈ ancestors f, isDir (w.fs q) = true) (hsize : 0 ≤ size)
    (hparts : ∀ filePart ∈ listing (env.srv [] (.fileParts filePath)),
      0 ≤ partStart filePart ∧ partStart filePart + partOffset filePart ≤ size)
    (h : blockPatch env filePath f size w = .done () w1) :
    (∀ q, q ≠ f → w1.fs q = w.fs q) ∧ (Fact.sized f size).holds w1.fs := by
  have hopen : openFile (sent (.fileParts filePath) w).fs f = some ⟨f, 0⟩ := by
    have hf : isFile (w.fs f) = true := by rw [hfs]; rfl
    simp only [openFile, sent, ancestors_all _ _ hanc, hf, Bool.and_self, if_true]
  have htr : truncate env (some ⟨f, 0⟩) size (sent (.fileParts filePath) w)
      = { sent (.fileParts filePath) w with
          fs := fun q => if q = f then
              some (.file (resize data size.toNat) (env.clock (w.trace ++ [.fileParts filePath])))
            else w.fs q } := by
    simp [truncate, not_lt.2 hsize, updateFile, sent, hfs]
  have hlen : ((resize data size.toNat).length : Int) = size := by
    rw [resize_length]; omega
  unfold blockPatch filePartsFromServer fetchJson at h
  rw [hfixed] at h
  unfold listing at hparts
  split at h
  · cases h
  · cases h
  · rename_i raw v hsrv
    rw [hsrv] at hparts
    simp only [bind_done, hopen, htr] at h
    split at h
    · simp only [Outcome.done.injEq, true_and] at h
      subst h
      exact ⟨fun q hq => by simp [hq], resize data size.toNat,
        env.clock (w.trace ++ [.fileParts filePath]), by simp, hlen⟩
    · cases hl : patchLoop env filePath (mustArray v) (some ⟨f, 0⟩)
          { sent (.fileParts filePath) w with
            fs := fun q => if q = f then
                some (.file (resize data size.toNat)
                  (env.clock (w.trace ++ [.fileParts filePath])))
              else w.fs q } with
      | crash p w2 => rw [hl] at h; cases h
      | done out2 w2 =>
        rw [hl, bind_done] at h
        simp only [Outcome.done.injEq, true_and] at h
        subst h
        obtain ⟨hframe, cur1, t1, hfs1, hlen1⟩ :=
          patchLoop_size env filePath f size.toNat (mustArray v) 0 _ (resize data size.toNat)
            (env.clock (w.trace ++ [.fileParts filePath])) out2 w2
            (fun q hq => by
              obtain ⟨h1, h2⟩ := hparts q hq
              exact ⟨h1, by omega⟩)
            (by simp) (resize_length _ _) hl
        refine ⟨fun q hq => ?_, cur1, t1, hfs1, by rw [hlen1]; omega⟩
        rw [hframe q hq]
        simp [hq]

theorem isPresent_iff (r : JVal) :
    isPresent r = true ↔ ∃ s, r.index "Status" = some (.str s) ∧ s ≠ "deleted" := by
  unfold isPresent
  split
  · rename_i s hs
    simp [hs]
  · rename_i hn
    constructor
    · intro h; cases h
    · rintro ⟨s, hs, _⟩
      exact absurd hs (hn s)

theorem isDeleted_iff (r : JVal) :
    isDeleted r = true ↔ r.index "Status" = some (.str "deleted") := by
  unfold isDeleted
  split
  · rename_i s hs
    simp [hs]
  · rename_i hn
    constructor
    · intro h; cases h
    · intro hs
      exact absurd hs (hn "deleted")

/-- A present file record, processed to its end where the directories above
its path exist and no directory sits at the path: only that path changes,
and it then holds a regular file of the declared size. -/
theorem processFile_present (env : Env) (hfixed : ∀ hist r, env.srv hist r = env.srv [] r)
    (fr : JVal) (w w1 : World) (hp : isPresent fr = true)
    (hanc : ∀ q ∈ ancestors (recPath env fr), isDir (w.fs q) = true)
    (hnd : isDir (w.fs (recPath env fr)) = false) (hsize : 0 ≤ recSize fr)
    (hfull : fullBody (env.srv [] (.download (relPath fr) 0 (recSize fr))) (recSize fr) = true)
    (hparts : ∀ filePart ∈ partRecs env fr,
      0 ≤ partStart filePart ∧ partStart filePart + partOffset filePart ≤ recSize fr)
    (h : processFile env fr w = .done () w1) :
    (∀ q, q ≠ recPath env fr → w1.fs q = w.fs q) ∧
      (Fact.sized (recPath env fr) (recSize fr)).holds w1.fs := by
  obtain ⟨status, hst, hne⟩ := (isPresent_iff fr).1 hp
  have hstat := stat_of_reachable _ _ hanc
  unfold recPath relPath at hanc hnd hstat ⊢
  unfold recSize at hsize hfull hparts ⊢
  unfold relPath at hfull
  unfold partRecs relPath at hparts
  simp only [processFile, hst, hne, if_false, hstat] at h
  generalize localPath env (strOrEmpty (fr.index "FilePath")) = f at *
  generalize strOrEmpty (fr.index "FilePath") = fp at *
  generalize int64OrZero (fr.index "FileSize") = size at *
  cases hnode : w.fs f with
  | none =>
    rw [hnode] at h
    simp only [] at h
    have hcr : create env f w = (some ⟨f, 0⟩,
        { w with fs := fun q => if q = f then some (.file [] (env.clock w.trace)) else w.fs q }) := by
      simp only [create, ancestors_all _ _ hanc, hnd, Bool.not_false, Bool.and_self, if_true]
    rw [hcr] at h
    cases hd : downloadFromServer env fp 0 size (some ⟨f, 0⟩)
        { w with fs := fun q => if q = f then some (.file [] (env.clock w.trace)) else w.fs q } with
    | crash p w2 => rw [hd] at h; cases h
    | done out2 w2 =>
      rw [hd, bind_done] at h
      simp only [Outcome.done.injEq, true_and] at h
      subst h
      obtain ⟨raw, j, t1, off1, hsrv, _, hframe, hnew⟩ :=
        download_into env _ 0 _ _ 0 _ [] (env.clock w.trace) out2 w2 (by simp) (le_refl _) hd
      rw [hfixed] at hsrv
      rw [hsrv] at hfull
      simp only [fullBody, decide_eq_true_eq] at hfull
      refine ⟨fun q hq => ?_, _, t1, hnew, ?_⟩
      · rw [hframe q hq]
        simp [hq]
      · split
        · rename_i hempty
          have := congrArg List.length hempty
          rw [List.length_take] at this
          simp only [List.length_nil] at this ⊢
          omega
        · simp only [overwrite, resize, List.take_nil, List.length_nil, Int.toNat_zero,
            Nat.sub_self, List.replicate_zero, List.nil_append, List.drop_nil, List.append_nil,
            List.length_take]
          omega
  | some node =>
    cases node with
    | dir mode sz mt =>
      rw [hnode] at hnd
      cases hnd
    | file data t =>
      rw [hnode] at h
      simp only [] at h
      split at h
      · rename_i hcond
        simp only [Outcome.done.injEq, true_and] at h
        subst h
        exact ⟨fun _ _ => rfl, data, t, hnode, hcond.1.symm⟩
      · exact blockPatch_size env hfixed _ _ _ w w1 data t hnode hanc hsize hparts h

theorem mem_dirPaths (env : Env) (c : Int) (dr : JVal) (h1 : dr ∈ dirRecs env c)
    (h2 : isPresent dr = true) : recPath env dr ∈ dirPaths env c :=
  List.mem_map.2 ⟨dr, List.mem_filter.2 ⟨h1, h2⟩, rfl⟩

theorem mem_listedFiles (env : Env) (c : Int) (dr fr : JVal) (h1 : dr ∈ dirRecs env c)
    (h2 : isPresent dr = true) (h3 : fr ∈ fileRecs env c dr) : (dr, fr) ∈ listedFiles env c :=
  List.mem_flatMap.2 ⟨dr, List.mem_filter.2 ⟨h1, h2⟩, List.mem_map.2 ⟨fr, h3, rfl⟩⟩

theorem mem_presentFiles (env : Env) (c : Int) (dr fr : JVal) (h1 : dr ∈ dirRecs env c)
    (h2 : isPresent dr = true) (h3 : fr ∈ fileRecs env c dr) (h4 : isPresent fr = true) :
    (dr, fr) ∈ presentFiles env c :=
  List.mem_filter.2 ⟨mem_listedFiles env c dr fr h1 h2 h3, h4⟩

theorem mem_deletedPaths_dir (env : Env) (c : Int) (dr : JVal) (h1 : dr ∈ dirRecs env c)
    (h2 : isDeleted dr = true) : recPath env dr ∈ deletedPaths env c :=
  List.mem_append_left _ (List.mem_map.2 ⟨dr, List.mem_filter.2 ⟨h1, h2⟩, rfl⟩)

theorem mem_deletedPaths_file (env : Env) (c : Int) (dr fr : JVal) (h1 : dr ∈ dirRecs env c)
    (h2 : isPresent dr = true) (h3 : fr ∈ fileRecs env c dr) (h4 : isDeleted fr = true) :
    recPath env fr ∈ deletedPaths env c :=
  List.mem_append_right _ (List.mem_map.2
    ⟨(dr, fr), List.mem_filter.2 ⟨mem_listedFiles env c dr fr h1 h2 h3, h4⟩, rfl⟩)

/-- Removing a path reported deleted keeps the way clear, keeps every planned
fact and makes the path's own fact true. -/
theorem keeps_removeAll (env : Env) (c : Int) (fs0 : FS) (ho : Orderly env c fs0)
    (x : List String) (hx : x ∈ deletedPaths env c) (w : World) :
    (Clear env c w.fs → Clear env c (removeAll x w).fs) ∧
    (∀ F : Fact, F.planned env c → F.holds w.fs → F.holds (removeAll x w).fs) ∧
    (Fact.gone x).holds (removeAll x w).fs := by
  have hfs : ∀ q, (removeAll x w).fs q = if x <+: q then none else w.fs q := fun _ => rfl
  refine ⟨?_, ?_, ?_⟩
  · rintro ⟨h1, h2⟩
    constructor
    · intro d hd q hq
      rw [hfs]
      split
      · rfl
      · exact h1 d hd q hq
    · intro e he
      rw [hfs]
      split
      · rfl
      · exact h2 e he
  · intro F hF hh
    cases F with
    | gone y =>
      intro q hq
      rw [hfs]
      split
      · rfl
      · exact hh q hq
    | dirAt d =>
      intro q hq hne
      rw [hfs, if_neg]
      · exact hh q hq hne
      · intro hxq
        exact ho.apartDirs x hx d hF (hxq.trans hq)
    | sized f size =>
      obtain ⟨e, he, hf, _⟩ := hF
      obtain ⟨data, t, hd, hl⟩ := hh
      refine ⟨data, t, ?_, hl⟩
      rw [hfs, if_neg]
      · exact hd
      · intro hxf
        rw [← hf] at hxf
        exact ho.apartFiles x hx e he hxf
  · intro q hq
    rw [hfs, if_pos hq]

/-- Creating a directory reported present, where the way is clear, keeps the
way clear, keeps every planned fact and makes the directory's own fact true. -/
theorem keeps_mkdirAll (env : Env) (c : Int) (fs0 : FS) (ho : Orderly env c fs0)
    (d : List String) (hd : d ∈ dirPaths env c) (mode : Int) (w : World)
    (hclear : Clear env c w.fs) :
    Clear env c (mkdirAll env d mode w).fs ∧
    (∀ F : Fact, F.planned env c → F.holds w.fs → F.holds (mkdirAll env d mode w).fs) ∧
    (Fact.dirAt d).holds (mkdirAll env d mode w).fs := by
  have hany : d.inits.any (fun q => isFile (w.fs q)) = false := by
    rw [List.any_eq_false]
    intro q hq
    rw [hclear.1 d hd q hq]
    simp
  have hfs : ∀ q, (mkdirAll env d mode w).fs q
      = if q <+: d ∧ q ≠ [] ∧ w.fs q = none then
          some (.dir (dirPerm env.umask mode) env.newDirSize (env.clock w.trace))
        else w.fs q := by
    intro q
    simp only [mkdirAll, hany, Bool.false_eq_true, if_false]
  refine ⟨⟨?_, ?_⟩, ?_, ?_⟩
  · intro d1 hd1 q hq
    rw [hfs]
    split
    · rfl
    · exact hclear.1 d1 hd1 q hq
  · intro e he
    rw [hfs, if_neg]
    · exact hclear.2 e he
    · rintro ⟨hp, _, _⟩
      exact ho.kinds e he d hd hp
  · intro F hF hh
    cases F with
    | gone y =>
      intro q hq
      rw [hfs, if_neg]
      · exact hh q hq
      · rintro ⟨hp, _, _⟩
        exact ho.apartDirs y hF d hd (hq.trans hp)
    | dirAt d1 =>
      intro q hq hne
      rw [hfs]
      split
      · rfl
      · exact hh q hq hne
    | sized f size =>
      obtain ⟨data, t, hdat, hl⟩ := hh
      refine ⟨data, t, ?_, hl⟩
      rw [hfs, if_neg]
      · exact hdat
      · rintro ⟨_, _, hn⟩
        rw [hdat] at hn
        cases hn
  · intro q hq hne
    rw [hfs]
    split
    · rfl
    · rename_i hcase
      have hnf := hclear.1 d hd q ((List.mem_inits q d).2 hq)
      cases hnode : w.fs q with
      | none => exact absurd ⟨hq, hne, hnode⟩ hcase
      | some node =>
        cases node with
        | dir a b e => rfl
        | file a b => rw [hnode] at hnf; cases hnf

/-- Processing a present file record of the cycle, with the directory it is
listed under in place, keeps the way clear, keeps every planned fact and
makes the file's own fact true. -/
theorem keeps_processFile (env : Env) (c : Int) (fs0 : FS) (ho : Orderly env c fs0)
    (e : JVal × JVal) (he : e ∈ presentFiles env c) (w w1 : World)
    (hclear : Clear env c w.fs) (hdir : (Fact.dirAt (recPath env e.1)).holds w.fs)
    (h : processFile env e.2 w = .done () w1) :
    Clear env c w1.fs ∧
    (∀ F : Fact, F.planned env c → F.holds w.fs → F.holds w1.fs) ∧
    (Fact.sized (recPath env e.2) (recSize e.2)).holds w1.fs := by
  have hp : isPresent e.2 = true := (List.mem_filter.1 he).2
  have hanc : ∀ q ∈ ancestors (recPath env e.2), isDir (w.fs q) = true := by
    intro q hq
    have hne : q ≠ [] := by
      have := (List.mem_filter.1 hq).2
      simp only [decide_eq_true_eq] at this
      exact this.1
    exact hdir q (ho.placed e he q hq) hne
  obtain ⟨hframe, hsized⟩ := processFile_present env ho.fixed e.2 w w1 hp hanc
    (hclear.2 e he) (ho.sizes e he) (ho.delivered e he) (ho.partsInside e he) h
  refine ⟨⟨?_, ?_⟩, ?_, hsized⟩
  · intro d hd q hq
    rw [hframe q]
    · exact hclear.1 d hd q hq
    · intro hqf
      rw [hqf] at hq
      exact ho.kinds e he d hd ((List.mem_inits _ _).1 hq)
  · intro e1 he1
    by_cases hsame : recPath env e1.2 = recPath env e.2
    · obtain ⟨data, t, hdat, _⟩ := hsized
      rw [hsame, hdat]
      rfl
    · rw [hframe _ hsame]
      exact hclear.2 e1 he1
  · intro F hF hh
    cases F with
    | gone y =>
      intro q hq
      rw [hframe q]
      · exact hh q hq
      · intro hqf
        rw [hqf] at hq
        exact ho.apartFiles y hF e he hq
    | dirAt d =>
      intro q hq hne
      rw [hframe q]
      · exact hh q hq hne
      · intro hqf
        rw [hqf] at hq
        exact ho.kinds e he d hF hq
    | sized f size =>
      obtain ⟨e1, he1, hf, hs⟩ := hF
      by_cases hsame : f = recPath env e.2
      · have := ho.agree e1 he1 e he (by rw [hf, hsame])
        rw [hsame, ← hs, this]
        exact hsized
      · obtain ⟨data, t, hdat, hl⟩ := hh
        exact ⟨data, t, by rw [hframe f hsame]; exact hdat, hl⟩

theorem status_cases (r : JVal) :
    isDeleted r = true ∨ isPresent r = true ∨ ∀ s, r.index "Status" ≠ some (.str s) := by
  cases h : r.index "Status" with
  | none => exact Or.inr (Or.inr fun s hs => by cases hs)
  | some v =>
    cases v with
    | str s =>
      by_cases hs : s = "deleted"
      · exact Or.inl ((isDeleted_iff r).2 (by rw [h, hs]))
      · exact Or.inr (Or.inl ((isPresent_iff r).2 ⟨s, h, hs⟩))
    | null => exact Or.inr (Or.inr fun s hs => by cases hs)
    | frac => exact Or.inr (Or.inr fun s hs => by cases hs)
    | bool b => exact Or.inr (Or.inr fun s hs => by cases hs)
    | num n => exact Or.inr (Or.inr fun s hs => by cases hs)
    | arr a => exact Or.inr (Or.inr fun s hs => by cases hs)
    | obj o => exact Or.inr (Or.inr fun s hs => by cases hs)

theorem not_present_of_deleted (r : JVal) (h : isDeleted r = true) : isPresent r = false := by
  have h1 := (isDeleted_iff r).1 h
  simp [isPresent, h1]

theorem processFile_deleted (env : Env) (r : JVal) (w : World) (h : isDeleted r = true) :
    processFile env r w = .done () (removeAll (recPath env r) w) := by
  have h1 := (isDeleted_iff r).1 h
  simp only [processFile, h1, if_true, recPath, relPath]

theorem processDir_deleted (env : Env) (c : Int) (r : JVal) (w : World)
    (h : isDeleted r = true) :
    processDir env c r w = .done () (removeAll (recPath env r) w) := by
  have h1 := (isDeleted_iff r).1 h
  simp only [processDir, h1, if_true, recPath, relPath]

theorem processFile_noStatus (env : Env) (r : JVal) (w : World)
    (h : ∀ s, r.index "Status" ≠ some (.str s)) :
    processFile env r w = .crash .typeAssertion w := by
  unfold processFile
  split
  · rename_i s hs
    exact absurd hs (h s)
  · rfl

theorem processDir_noStatus (env : Env) (c : Int) (r : JVal) (w : World)
    (h : ∀ s, r.index "Status" ≠ some (.str s)) :
    processDir env c r w = .crash .typeAssertion w := by
  unfold processDir
  split
  · rename_i s hs
    exact absurd hs (h s)
  · rfl

/-- The file loop over records listed under a present directory that is in
place. -/
theorem fileLoop_ok (env : Env) (c : Int) (fs0 : FS) (ho : Orderly env c fs0) (dr : JVal)
    (hdr1 : dr ∈ dirRecs env c) (hdr2 : isPresent dr = true) (l : List JVal) :
    ∀ w w1 : World, (∀ fr ∈ l, fr ∈ fileRecs env c dr) → Clear env c w.fs →
      (Fact.dirAt (recPath env dr)).holds w.fs → fileLoop env l w = .done () w1 →
      Clear env c w1.fs ∧
      (∀ F : Fact, F.planned env c → F.holds w.fs → F.holds w1.fs) ∧
      ∀ fr ∈ l, (isDeleted fr = true → (Fact.gone (recPath env fr)).holds w1.fs) ∧
        (isPresent fr = true → (Fact.sized (recPath env fr) (recSize fr)).holds w1.fs) := by
  induction l with
  | nil =>
    intro w w1 _ hclear _ h
    simp only [fileLoop, Outcome.done.injEq, true_and] at h
    subst h
    exact ⟨hclear, fun _ _ hh => hh, fun _ hm => by cases hm⟩
  | cons a rest ih =>
    intro w w1 hmem hclear hdir h
    unfold fileLoop at h
    have ha := hmem a (List.mem_cons_self a rest)
    cases hp : processFile env a w with
    | crash p w2 => rw [hp] at h; cases h
    | done u w2 =>
      rw [hp, bind_done] at h
      have hstep : Clear env c w2.fs ∧
          (∀ F : Fact, F.planned env c → F.holds w.fs → F.holds w2.fs) ∧
          (isDeleted a = true → (Fact.gone (recPath env a)).holds w2.fs) ∧
          (isPresent a = true → (Fact.sized (recPath env a) (recSize a)).holds w2.fs) := by
        rcases status_cases a with hd | hpres | hnone
        · rw [processFile_deleted env a w hd] at hp
          simp only [Outcome.done.injEq, true_and] at hp
          subst hp
          obtain ⟨k1, k2, k3⟩ := keeps_removeAll env c fs0 ho (recPath env a)
            (mem_deletedPaths_file env c dr a hdr1 hdr2 ha hd) w
          refine ⟨k1 hclear, k2, fun _ => k3, fun hpr => ?_⟩
          rw [not_present_of_deleted a hd] at hpr
          cases hpr
        · obtain ⟨k1, k2, k3⟩ := keeps_processFile env c fs0 ho (dr, a)
            (mem_presentFiles env c dr a hdr1 hdr2 ha hpres) w w2 hclear hdir hp
          refine ⟨k1, k2, fun hd => ?_, fun _ => k3⟩
          rw [not_present_of_deleted a hd] at hpres
          cases hpres
        · rw [processFile_noStatus env a w hnone] at hp
          cases hp
      obtain ⟨hc2, hk2, hda, hpa⟩ := hstep
      obtain ⟨hc1, hk1, hrest⟩ := ih w2 w1 (fun fr hfr => hmem fr (List.mem_cons_of_mem a hfr))
        hc2 (hk2 _ (mem_dirPaths env c dr hdr1 hdr2) hdir) h
      refine ⟨hc1, fun F hF hh => hk1 F hF (hk2 F hF hh), ?_⟩
      intro fr hfr
      rcases List.mem_cons.1 hfr with rfl | hfr
      · constructor
        · intro hd
          exact hk1 _ (mem_deletedPaths_file env c dr fr hdr1 hdr2 ha hd) (hda hd)
        · intro hpres
          exact hk1 _ ⟨(dr, fr), mem_presentFiles env c dr fr hdr1 hdr2 ha hpres, rfl, rfl⟩
            (hpa hpres)
      · exact hrest fr hfr

/-- A present directory record of the cycle, processed to its end. -/
theorem processDir_present_ok (env : Env) (c : Int) (fs0 : FS) (ho : Orderly env c fs0)
    (dr : JVal) (hdr1 : dr ∈ dirRecs env c) (hdr2 : isPresent dr = true) (w w1 : World)
    (hclear : Clear env c w.fs) (h : processDir env c dr w = .done () w1) :
    Clear env c w1.fs ∧
    (∀ F : Fact, F.planned env c → F.holds w.fs → F.holds w1.fs) ∧
    (Fact.dirAt (recPath env dr)).holds w1.fs ∧
    ∀ fr ∈ fileRecs env c dr,
      (isDeleted fr = true → (Fact.gone (recPath env fr)).holds w1.fs) ∧
      (isPresent fr = true → (Fact.sized (recPath env fr) (recSize fr)).holds w1.fs) := by
  obtain ⟨status, hst, hne⟩ := (isPresent_iff dr).1 hdr2
  have hd := mem_dirPaths env c dr hdr1 hdr2
  obtain ⟨k1, k2, k3⟩ := keeps_mkdirAll env c fs0 ho (recPath env dr) hd
    (int64OrZero (dr.index "FileMode")) w hclear
  have hfiles : fileRecs env c dr = listing (env.srv [] (.files c (relPath dr))) := rfl
  simp only [processDir, hst, hne, if_false, filesFromServer, fetchJson] at h
  rw [ho.fixed] at h
  cases hsrv : env.srv [] (.files c (strOrEmpty (dr.index "FilePath"))) with
  | noResponse => rw [hsrv] at h; simp [Outcome.bind] at h
  | body raw j =>
    cases j with
    | none => rw [hsrv] at h; simp [Outcome.bind] at h
    | some v =>
      rw [hsrv] at h
      have hfiles1 : fileRecs env c dr = mustArray v := by
        rw [hfiles]
        unfold relPath
        rw [hsrv]
        rfl
      simp only [bind_done] at h
      split at h
      · rename_i hlen
        simp only [Outcome.done.injEq, true_and] at h
        subst h
        have hnil : fileRecs env c dr = [] := by
          rw [hfiles1]; exact List.length_eq_zero.1 hlen
        refine ⟨k1, k2, k3, ?_⟩
        intro fr hfr
        rw [hnil] at hfr
        cases hfr
      · obtain ⟨hc1, hk1, hrest⟩ := fileLoop_ok env c fs0 ho dr hdr1 hdr2 (mustArray v)
          (sent (.files c (strOrEmpty (dr.index "FilePath")))
            (mkdirAll env (recPath env dr) (int64OrZero (dr.index "FileMode")) w)) w1
          (fun fr hfr => by rw [hfiles1]; exact hfr) k1 k3 h
        refine ⟨hc1, fun F hF hh => hk1 F hF (k2 F hF hh), hk1 _ hd k3, ?_⟩
        intro fr hfr
        rw [hfiles1] at hfr
        exact hrest fr hfr

/-- The directory loop over records of the cycle. -/
theorem dirLoop_ok (env : Env) (c : Int) (fs0 : FS) (ho : Orderly env c fs0) (l : List JVal) :
    ∀ w w1 : World, (∀ dr ∈ l, dr ∈ dirRecs env c) → Clear env c w.fs →
      dirLoop env c l w = .done () w1 →
      Clear env c w1.fs ∧
      (∀ F : Fact, F.planned env c → F.holds w.fs → F.holds w1.fs) ∧
      ∀ dr ∈ l, (isDeleted dr = true → (Fact.gone (recPath env dr)).holds w1.fs) ∧
        (isPresent dr = true → (Fact.dirAt (recPath env dr)).holds w1.fs ∧
          ∀ fr ∈ fileRecs env c dr,
            (isDeleted fr = true → (Fact.gone (recPath env fr)).holds w1.fs) ∧
            (isPresent fr = true →
              (Fact.sized (recPath env fr) (recSize fr)).holds w1.fs)) := by
  induction l with
  | nil =>
    intro w w1 _ hclear h
    simp only [dirLoop, Outcome.done.injEq, true_and] at h
    subst h
    exact ⟨hclear, fun _ _ hh => hh, fun _ hm => by cases hm⟩
  | cons a rest ih =>
    intro w w1 hmem hclear h
    unfold dirLoop at h
    have ha := hmem a (List.mem_cons_self a rest)
    cases hp : processDir env c a w with
    | crash p w2 => rw [hp] at h; cases h
    | done u w2 =>
      rw [hp, bind_done] at h
      have hstep : Clear env c w2.fs ∧
          (∀ F : Fact, F.planned env c → F.holds w.fs → F.holds w2.fs) ∧
          (isDeleted a = true → (Fact.gone (recPath env a)).holds w2.fs) ∧
          (isPresent a = true → (Fact.dirAt (recPath env a)).holds w2.fs ∧
            ∀ fr ∈ fileRecs env c a,
              (isDeleted fr = true → (Fact.gone (recPath env fr)).holds w2.fs) ∧
              (isPresent fr = true →
                (Fact.sized (recPath env fr) (recSize fr)).holds w2.fs)) := by
        rcases status_cases a with hd | hpres | hnone
        · rw [processDir_deleted env c a w hd] at hp
          simp only [Outcome.done.injEq, true_and] at hp
          subst hp
          obtain ⟨k1, k2, k3⟩ := keeps_removeAll env c fs0 ho (recPath env a)
            (mem_deletedPaths_dir env c a ha hd) w
          refine ⟨k1 hclear, k2, fun _ => k3, fun hpr => ?_⟩
          rw [not_present_of_deleted a hd] at hpr
          cases hpr
        · obtain ⟨k1, k2, k3, k4⟩ :=
            processDir_present_ok env c fs0 ho a ha hpres w w2 hclear hp
          refine ⟨k1, k2, fun hd => ?_, fun _ => ⟨k3, k4⟩⟩
          rw [not_present_of_deleted a hd] at hpres
          cases hpres
        · rw [processDir_noStatus env c a w hnone] at hp
          cases hp
      obtain ⟨hc2, hk2, hda, hpa⟩ := hstep
      obtain ⟨hc1, hk1, hrest⟩ :=
        ih w2 w1 (fun dr hdr => hmem dr (List.mem_cons_of_mem a hdr)) hc2 h
      refine ⟨hc1, fun F hF hh => hk1 F hF (hk2 F hF hh), ?_⟩
      intro dr hdr
      rcases List.mem_cons.1 hdr with rfl | hdr
      · constructor
        · intro hd
          exact hk1 _ (mem_deletedPaths_dir env c dr ha hd) (hda hd)
        · intro hpres
          obtain ⟨q1, q2⟩ := hpa hpres
          refine ⟨hk1 _ (mem_dirPaths env c dr ha hpres) q1, ?_⟩
          intro fr hfr
          constructor
          · intro hd
            exact hk1 _ (mem_deletedPaths_file env c dr fr ha hpres hfr hd) ((q2 fr hfr).1 hd)
          · intro hpf
            exact hk1 _ ⟨(dr, fr), mem_presentFiles env c dr fr ha hpres hfr hpf, rfl, rfl⟩
              ((q2 fr hfr).2 hpf)
      · exact hrest dr hdr

theorem recPath_ne_nil (env : Env) (r : JVal) : recPath env r ≠ [] := by
  simp [recPath, localPath, Path.comps]

/-- Runs of a cycle that completes and yet leaves the mirror unlike the report,
each outside one of the assumptions of `Orderly` and inside all the others.
The `/download` body breaks off after three of five bytes: the file has three.
The listing names `a/b` present and then `a` deleted: `a/b` is gone. It names `a/x.txt`
as a file and as a directory: no directory is there. A regular file sits at
`a`: no directory `a` appears. A directory sits at `a/x.txt`: no file appears. A file
listed under `a` lies in the missing directory `b`: it is not created. The
declared size is negative: the file is empty. Two records of one path
declare five and three bytes: the file has three. A part reaches past the
declared five bytes: the file has eight. The answer to `/files` changes within
the cycle: the file listed first is gone. -/
theorem cycle_counterexample :
    ((cycle shortEnv (10 * second) ⟨0, second⟩ emptyWorld).val? = some ⟨42, second⟩ ∧
      (cycle shortEnv (10 * second) ⟨0, second⟩ emptyWorld).world.fs ["tmp", "m", "a", "x.txt"]
        = some (.file (ascii "hel") 2000)) ∧
    ((cycle staleEnv (10 * second) ⟨0, second⟩ emptyWorld).val? = some ⟨44, second⟩ ∧
      (cycle staleEnv (10 * second) ⟨0, second⟩ emptyWorld).world.fs ["tmp", "m", "a", "b"]
        = none) ∧
    ((cycle kindsEnv (10 * second) ⟨0, second⟩ emptyWorld).val? = some ⟨50, second⟩ ∧
      isDir ((cycle kindsEnv (10 * second) ⟨0, second⟩ emptyWorld).world.fs
        (recPath kindsEnv dirX)) = false) ∧
    ((cycle onlyDirEnv (10 * second) ⟨0, second⟩ blockedWorld).val? = some ⟨50, second⟩ ∧
      isDir ((cycle onlyDirEnv (10 * second) ⟨0, second⟩ blockedWorld).world.fs
        (recPath onlyDirEnv dirA)) = false) ∧
    ((cycle coldEnv (10 * second) ⟨0, second⟩ dirInWayWorld).val? = some ⟨42, second⟩ ∧
      isFile ((cycle coldEnv (10 * second) ⟨0, second⟩ dirInWayWorld).world.fs
        (recPath coldEnv helloRec)) = false) ∧
    ((cycle misplacedEnv (10 * second) ⟨0, second⟩ mirrorDirs).val? = some ⟨50, second⟩ ∧
      (cycle misplacedEnv (10 * second) ⟨0, second⟩ mirrorDirs).world.fs
        (recPath misplacedEnv fileBX) = none) ∧
    ((cycle negativeEnv (10 * second) ⟨0, second⟩ emptyWorld).val? = some ⟨50, second⟩ ∧
      (cycle negativeEnv (10 * second) ⟨0, second⟩ emptyWorld).world.fs
        (recPath negativeEnv fileNeg) = some (.file [] 2000) ∧ recSize fileNeg = -5) ∧
    ((cycle disagreeEnv (10 * second) ⟨0, second⟩ emptyWorld).val? = some ⟨50, second⟩ ∧
      (cycle disagreeEnv (10 * second) ⟨0, second⟩ emptyWorld).world.fs
        (recPath disagreeEnv helloRec) = some (.file (ascii "hel") 2000) ∧
      recSize helloRec = 5) ∧
    ((cycle outsideEnv (10 * second) ⟨0, second⟩ (mirrorWith (ascii "hello") 1)).val?
        = some ⟨50, second⟩ ∧
      (cycle outsideEnv (10 * second) ⟨0, second⟩ (mirrorWith (ascii "hello") 1)).world.fs
        (recPath outsideEnv helloRec) = some (.file (ascii "helhello") 2000) ∧
      recSize helloRec = 5) ∧
    ((cycle changingEnv (10 * second) ⟨0, second⟩ emptyWorld).val? = some ⟨50, second⟩ ∧
      (cycle changingEnv (10 * second) ⟨0, second⟩ emptyWorld).world.fs
        (recPath changingEnv helloRec) = none) := by
  refine ⟨⟨by decide, by decide⟩, ⟨by decide, by decide⟩, ⟨by decide, by decide⟩,
    ⟨by decide, by decide⟩, ⟨by decide, by decide⟩, ⟨by decide, by decide⟩,
    ⟨by decide, by decide, by decide⟩, ⟨by decide, by decide, by decide⟩,
    ⟨by decide, by decide, by decide⟩, ⟨by decide, by decide⟩⟩

/-- C6, amended. Let the server answer each request the same way throughout a
cycle, and let the listing and the local state be orderly: nothing reported
present lies at or below a path reported deleted; no present file is or lies
above a present directory; at the start no regular file sits on the path of
a present directory and no directory at the path of a present file; every
present file lies in the directory it is listed under; declared sizes are
not negative and agree for records of one path; a full download delivers at
least the declared number of bytes and listed parts lie inside the declared
size. Then, when the cycle completes, the directory records it received are
those of the listing, and at its end: nothing exists at or below a path
reported deleted, of a directory or of a file; every directory reported
present is a directory; every file reported present under it is a regular
file whose length is the declared `FileSize`. -/
theorem cycle_reconciles (env : Env) (m : Int) (st : Worker) (w : World) (st1 : Worker)
    (ho : Orderly env st.lastIndexed w.fs)
    (hdone : (cycle env m st w).val? = some st1) :
    (dirsFromServer env st.lastIndexed (timeFromServer env w).world).val?
        = some (dirRecs env st.lastIndexed) ∧
    ∀ dr ∈ dirRecs env st.lastIndexed,
      (isDeleted dr = true →
        ∀ q, recPath env dr <+: q → (cycle env m st w).world.fs q = none) ∧
      (isPresent dr = true →
        isDir ((cycle env m st w).world.fs (recPath env dr)) = true ∧
        ∀ fr ∈ fileRecs env st.lastIndexed dr,
          (isDeleted fr = true →
            ∀ q, recPath env fr <+: q → (cycle env m st w).world.fs q = none) ∧
          (isPresent fr = true →
            ∃ data t, (cycle env m st w).world.fs (recPath env fr) = some (.file data t) ∧
              (data.length : Int) = recSize fr)) := by
  obtain ⟨T, w1, dirs, w2, ht, hd, _, _, _⟩ := cycle_val env m st w st1 hdone
  have hw1 : w1 = sent .time w := by
    have := timeFromServer_world env w
    rw [ht] at this
    exact this
  have hw2 : w2 = sent (.dirs st.lastIndexed) w1 := by
    have := dirsFromServer_world env st.lastIndexed w1
    rw [hd] at this
    exact this
  have hdirs : dirs = dirRecs env st.lastIndexed := by
    have hd1 := hd
    simp only [dirsFromServer, fetchJson] at hd1
    rw [ho.fixed] at hd1
    unfold dirRecs listing
    cases hsrv : env.srv [] (.dirs st.lastIndexed) with
    | noResponse => rw [hsrv] at hd1; simp [Outcome.bind] at hd1
    | body raw j =>
      cases j with
      | none => rw [hsrv] at hd1; simp [Outcome.bind] at hd1
      | some v =>
        rw [hsrv] at hd1
        simp only [bind_done, Outcome.done.injEq] at hd1
        exact hd1.1.symm
  have hfs2 : w2.fs = w.fs := by rw [hw2, hw1]; rfl
  have hclear : Clear env st.lastIndexed w2.fs := by
    rw [hfs2]
    exact ⟨ho.noFileInWay, ho.noDirInWay⟩
  refine ⟨by rw [ht]; simp only [Outcome.world]; rw [hd, hdirs]; rfl, ?_⟩
  have hcyc : cycle env m st w
      = if dirs.length = 0 then
          .done ⟨T, idleBackoff m st.sleepTime⟩ (sleep (idleBackoff m st.sleepTime) w2)
        else (dirLoop env st.lastIndexed dirs w2).bind fun _ w3 =>
          .done ⟨T, second⟩ (sleep second w3) := by
    simp only [cycle, ht, bind_done, hd]
  by_cases hlen : dirs.length = 0
  · have hnil : dirRecs env st.lastIndexed = [] := by
      rw [← hdirs]; exact List.length_eq_zero.1 hlen
    intro dr hdr
    rw [hnil] at hdr
    cases hdr
  · rw [hcyc, if_neg hlen]
    rw [hcyc, if_neg hlen] at hdone
    cases hl : dirLoop env st.lastIndexed dirs w2 with
    | crash p w3 => rw [hl] at hdone; cases hdone
    | done u w3 =>
      rw [bind_done]
      obtain ⟨_, _, hall⟩ := dirLoop_ok env st.lastIndexed w.fs ho dirs w2 w3
        (fun dr hdr => by rw [← hdirs]; exact hdr) hclear hl
      intro dr hdr
      rw [← hdirs] at hdr
      obtain ⟨h1, h2⟩ := hall dr hdr
      refine ⟨fun hdel => h1 hdel, fun hpres => ?_⟩
      obtain ⟨h3, h4⟩ := h2 hpres
      exact ⟨h3 _ (List.prefix_refl _) (recPath_ne_nil env dr),
        fun fr hfr => ⟨fun hdel => (h4 fr hfr).1 hdel, fun hpf => (h4 fr hfr).2 hpf⟩⟩

theorem cycle_reconciles_witness :
    (∀ q, ["tmp", "m", "old"] <+: q →
      (cycle mixedEnv (10 * second) ⟨0, second⟩ mixedWorld).world.fs q = none) ∧
    isDir ((cycle mixedEnv (10 * second) ⟨0, second⟩ mixedWorld).world.fs ["tmp", "m", "a"])
      = true ∧
    (∀ q, ["tmp", "m", "a", "y.txt"] <+: q →
      (cycle mixedEnv (10 * second) ⟨0, second⟩ mixedWorld).world.fs q = none) ∧
    ∃ data t, (cycle mixedEnv (10 * second) ⟨0, second⟩ mixedWorld).world.fs
        ["tmp", "m", "a", "x.txt"] = some (.file data t) ∧ (data.length : Int) = 5 :=
  have ho : Orderly mixedEnv 0 mixedWorld.fs :=
    { fixed := fun _ _ => rfl
      apartDirs := by decide
      apartFiles := by decide
      kinds := by decide
      noFileInWay := by decide
      noDirInWay := by decide
      placed := by decide
      sizes := by decide
      agree := by decide
      delivered := by decide
      partsInside := by decide }
  have h := (cycle_reconciles mixedEnv (10 * second) ⟨0, second⟩ mixedWorld ⟨45, second⟩ ho
    (by decide)).2
  have hA := (h dirA (List.Mem.head _)).2 rfl
  have hOld := (h dirOld (List.Mem.tail _ (List.Mem.head _))).1 rfl
  ⟨hOld, hA.1, (hA.2 fileY (List.Mem.tail _ (List.Mem.head _))).1 rfl,
    (hA.2 helloRec (List.Mem.head _)).2 rfl⟩

end Gsync
